import Mathlib

/-!
# Hashtool: CSV rows to CHIP-0007 objects and their SHA-256 hashes

A shallow embedding of `hashtool.go`.

Conventions of the embedding

* A Go `string` is the list of its runes (`GoString`); the cells of the CSV
  file are taken to be valid UTF-8 text.  Bytes appear only where the program
  hashes (`Marshal`, the `digest` of `crypto/sha256`) and counts newlines.
* `int` values (`line`, `numLines`) are natural numbers: `line` starts at 1
  and grows by at most one per record, `numLines` is a count of bytes read.
* A run-time panic of the Go program (an index out of range) and the errors
  `process` returns are the `Except.error` results of the embedding.
* The CSV reader and writer are the collaborators of `process`: the reader
  hands over the records of the file one by one, the writer takes the rows
  written.  Their own failures are not part of the embedding.
-/

set_option autoImplicit false

namespace Hashtool

/-! ## Strings -/

/-- A Go string, as the sequence of its runes -/
abbrev GoString := List Char

/-- The function `unicode.IsSpace`: the Latin-1 spaces by the switch of the Go
source, the others by the `White_Space` table -/
def unicodeIsSpace (r : Char) : Bool :=
  let n := r.toNat
  if n ≤ 0xFF then
    n == 0x09 || n == 0x0A || n == 0x0B || n == 0x0C || n == 0x0D || n == 0x20
      || n == 0x85 || n == 0xA0
  else
    n == 0x1680 || (0x2000 ≤ n && n ≤ 0x200A) || n == 0x2028 || n == 0x2029
      || n == 0x202F || n == 0x205F || n == 0x3000

/-- The function `strings.TrimFunc` -/
def TrimFunc (s : GoString) (f : Char → Bool) : GoString :=
  ((s.dropWhile f).reverse.dropWhile f).reverse

/-- The function `strings.TrimSpace` -/
def TrimSpace (s : GoString) : GoString :=
  TrimFunc s unicodeIsSpace

/-- The function `strings.Trim`: strips the runes of `cutset` at both ends -/
def Trim (s : GoString) (cutset : GoString) : GoString :=
  TrimFunc s (fun r => cutset.contains r)

/-- The function `strings.Split` for a separator of one rune: the pieces of `s`
between the occurrences of `sep`, one piece more than there are occurrences -/
def Split (s : GoString) (sep : Char) : List GoString :=
  match s with
  | [] => [[]]
  | c :: rest =>
    if c = sep then [] :: Split rest sep
    else
      match Split rest sep with
      | [] => [[c]]
      | piece :: pieces => (c :: piece) :: pieces

/-- Case mappings of the runes above U+007F, which Go reads from the tables of
its `unicode` package (`unicode.To`) -/
structure CaseTables where
  /-- The mapping `unicode.To(unicode.LowerCase, r)` -/
  toLower : Char → Char
  /-- The mapping `unicode.To(unicode.UpperCase, r)` -/
  toUpper : Char → Char

/-- The function `unicode.ToLower` -/
def unicodeToLower (ct : CaseTables) (r : Char) : Char :=
  if r.toNat ≤ 0x7F then
    if 'A'.toNat ≤ r.toNat ∧ r.toNat ≤ 'Z'.toNat then Char.ofNat (r.toNat + ('a'.toNat - 'A'.toNat))
    else r
  else ct.toLower r

/-- The function `unicode.ToUpper` -/
def unicodeToUpper (ct : CaseTables) (r : Char) : Char :=
  if r.toNat ≤ 0x7F then
    if 'a'.toNat ≤ r.toNat ∧ r.toNat ≤ 'z'.toNat then Char.ofNat (r.toNat - ('a'.toNat - 'A'.toNat))
    else r
  else ct.toUpper r

/-- The function `strings.ToLower` -/
def ToLower (ct : CaseTables) (s : GoString) : GoString :=
  s.map (unicodeToLower ct)

/-- The function `strings.ToUpper` -/
def ToUpper (ct : CaseTables) (s : GoString) : GoString :=
  s.map (unicodeToUpper ct)

/-- Case tables that leave every rune above U+007F as it is: enough for text
whose letters are ASCII -/
def asciiCase : CaseTables := ⟨id, id⟩

/-- The lookup of a `strings.Replacer` at the head of `s`: of the old strings
that are a prefix of `s`, the one that comes first in the argument list -/
def replacerLookup (oldnew : List (GoString × GoString)) (s : GoString) :
    Option (GoString × GoString) :=
  oldnew.find? (fun p => p.1.isPrefixOf s)

/-- The method `Replace` of a `strings.Replacer` built from the pairs `oldnew`
(none of them with an empty old string): matches are taken from left to right
and do not overlap.  `skip` counts the runes of the current match that are
still to be passed over. -/
def replaceFrom (oldnew : List (GoString × GoString)) : Nat → GoString → GoString
  | _, [] => []
  | skip + 1, _ :: rest => replaceFrom oldnew skip rest
  | 0, c :: rest =>
    match replacerLookup oldnew (c :: rest) with
    | some (old, new) => new ++ replaceFrom oldnew (old.length - 1) rest
    | none => c :: replaceFrom oldnew 0 rest

/-- The replacer `strings.NewReplacer("; ", ";", " ;", ";", ",", ";", ", ", ";")` -/
def attributeSeparators : List (GoString × GoString) :=
  [("; ".toList, ";".toList), (" ;".toList, ";".toList),
   (",".toList, ";".toList), (", ".toList, ";".toList)]

/-! ## Failures -/

/-- The error a call of `Read` returns -/
inductive ReadError where
  | EOF
  | other (msg : GoString)
  deriving DecidableEq

/-- The ways a run of `process` ends without an output file -/
inductive Fault where
  /-- The panic `index out of range [index] with length length` -/
  | indexOutOfRange (index : Int) (length : Nat)
  /-- The error `An Error Occurred While Retrieving The Number Of NFTs In File` -/
  | countFailed (err : ReadError)
  /-- The error `Empty CSV File Passed` -/
  | emptyFile
  deriving DecidableEq

/-- The index expression `record[i]` on a slice of strings -/
def index (record : List GoString) (i : Int) : Except Fault GoString :=
  if i < 0 then .error (.indexOutOfRange i record.length)
  else
    match record[i.toNat]? with
    | some cell => .ok cell
    | none => .error (.indexOutOfRange i record.length)

/-! ## The attribute parser -/

/-- The type `Attribute` -/
structure Attribute where
  TraitType : GoString
  Value : GoString
  deriving DecidableEq

/-- The loop of `serializeAttributes` over the entries `attrs`, `result` being
the attributes appended so far -/
def serializeEntries : List GoString → List Attribute → Except Fault (List Attribute)
  | [], result => pure result
  | entry :: rest, result => do
    let attributeAndValue := Split entry ':'
    if attributeAndValue.length ≠ 2 then
      serializeEntries rest result
    else
      let trait ← index attributeAndValue 0
      let value ← index attributeAndValue 1
      serializeEntries rest
        (result ++ [{ TraitType := TrimSpace trait
                      Value := Trim (TrimSpace value) ",".toList }])

/-- The function `serializeAttributes` -/
def serializeAttributes (attributes : GoString) : Except Fault (List Attribute) :=
  let attributes := replaceFrom attributeSeparators 0 attributes
  let attrs := Split attributes ';'
  if attrs.length = 0 then pure []
  else serializeEntries attrs []

/-! ## The CHIP-0007 object and its JSON text -/

/-- The anonymous struct of the field `Attributes` of a `Collection` -/
structure CollectionAttributes where
  Type_ : GoString
  Value : GoString
  deriving DecidableEq

/-- The type `Collection` -/
structure Collection where
  Name : GoString
  ID : GoString
  Attributes : CollectionAttributes
  deriving DecidableEq

/-- The type `chipJson`, the CHIP-0007 object model.  A nil slice of attributes
and an empty one are both the empty list. -/
structure chipJson where
  Format : GoString
  Name : GoString
  Description : GoString
  MintingTool : GoString
  SensitiveContent : Bool
  SeriesNumber : Nat
  SeriesTotal : Nat
  Attributes : List Attribute
  Collection : Collection
  deriving DecidableEq

/-- The digit of `n` in the table `0123456789abcdef` -/
def hexDigit (n : Nat) : Char :=
  "0123456789abcdef".toList.getD n '0'

/-- A string as `encoding/json` writes it with HTML escaping on (the setting of
`json.Marshal`): between quotes, with the quote and the backslash escaped, the
control characters as `\b`, `\f`, `\n`, `\r`, `\t` or `\u00xx`, the characters
`<`, `>`, `&` as `\u00xx`, and the runes U+2028, U+2029 by their `\u` escapes -/
def jsonEscapeRune (r : Char) : GoString :=
  let b := r.toNat
  if r = '\\' ∨ r = '"' then ['\\', r]
  else if b = 0x08 then "\\b".toList
  else if b = 0x0C then "\\f".toList
  else if b = 0x0A then "\\n".toList
  else if b = 0x0D then "\\r".toList
  else if b = 0x09 then "\\t".toList
  else if b < 0x20 ∨ r = '<' ∨ r = '>' ∨ r = '&' then
    "\\u00".toList ++ [hexDigit (b / 16), hexDigit (b % 16)]
  else if b = 0x2028 ∨ b = 0x2029 then
    "\\u202".toList ++ [hexDigit (b % 16)]
  else [r]

/-- The JSON text of a string value -/
def jsonString (s : GoString) : GoString :=
  '"' :: s.flatMap jsonEscapeRune ++ ['"']

/-- The JSON text of an `int` that is not negative -/
def jsonInt (n : Nat) : GoString :=
  (Nat.repr n).toList

/-- The JSON text of a `bool` -/
def jsonBool (b : Bool) : GoString :=
  if b then "true".toList else "false".toList

/-- The JSON text of an `Attribute` -/
def jsonAttribute (a : Attribute) : GoString :=
  "\x7b\"trait_type\":".toList ++ jsonString a.TraitType
    ++ ",\"value\":".toList ++ jsonString a.Value ++ "\x7d".toList

/-- The JSON text of a slice of attributes: `null` for the nil slice, else the
elements in order between brackets, separated by commas -/
def jsonAttributes (attrs : List Attribute) : GoString :=
  match attrs with
  | [] => "null".toList
  | a :: rest =>
    "[".toList ++ jsonAttribute a ++ rest.flatMap (fun b => ',' :: jsonAttribute b) ++ "]".toList

/-- The JSON text of a `Collection`; the field `Attributes` has no tag and
keeps its Go name -/
def jsonCollection (c : Collection) : GoString :=
  "\x7b\"name\":".toList ++ jsonString c.Name
    ++ ",\"id\":".toList ++ jsonString c.ID
    ++ ",\"Attributes\":\x7b\"type\":".toList ++ jsonString c.Attributes.Type_
    ++ ",\"value\":".toList ++ jsonString c.Attributes.Value ++ "\x7d\x7d".toList

/-- The text `json.Marshal` produces for a `chipJson`: the fields in the order
of their declaration, under the names of their tags -/
def MarshalText (entry : chipJson) : GoString :=
  "\x7b\"format\":".toList ++ jsonString entry.Format
    ++ ",\"name\":".toList ++ jsonString entry.Name
    ++ ",\"description\":".toList ++ jsonString entry.Description
    ++ ",\"minting_tool\":".toList ++ jsonString entry.MintingTool
    ++ ",\"sensitive_content\":".toList ++ jsonBool entry.SensitiveContent
    ++ ",\"series_number\":".toList ++ jsonInt entry.SeriesNumber
    ++ ",\"series_total\":".toList ++ jsonInt entry.SeriesTotal
    ++ ",\"attributes\":".toList ++ jsonAttributes entry.Attributes
    ++ ",\"collection\":".toList ++ jsonCollection entry.Collection ++ "\x7d".toList

/-- The UTF-8 encoding of a rune -/
def utf8Rune (r : Char) : List Nat :=
  let n := r.toNat
  if n < 0x80 then [n]
  else if n < 0x800 then [0xC0 + n / 0x40, 0x80 + n % 0x40]
  else if n < 0x10000 then [0xE0 + n / 0x1000, 0x80 + n / 0x40 % 0x40, 0x80 + n % 0x40]
  else [0xF0 + n / 0x40000, 0x80 + n / 0x1000 % 0x40, 0x80 + n / 0x40 % 0x40, 0x80 + n % 0x40]

/-- The bytes of a Go string -/
def utf8Bytes (s : GoString) : List Nat :=
  s.flatMap utf8Rune

/-- The function `json.Marshal` at the type `chipJson`, where it has no error.
The strings of the embedding are valid UTF-8; the case of `encoding/json` that
writes every byte of a string that is not valid UTF-8 as the escape of U+FFFD
is not part of it. -/
def Marshal (entry : chipJson) : List Nat :=
  utf8Bytes (MarshalText entry)

/-! ## The hasher of `crypto/sha256`

Words are natural numbers below `2 ^ 32`, bytes natural numbers below `2 ^ 8`;
every sum of words is reduced modulo `2 ^ 32`. -/

/-- The rotation `bits.RotateLeft32(x, -k)` of a 32-bit word, for `0 < k < 32` -/
def rotateRight32 (x k : Nat) : Nat :=
  (x >>> k ||| x <<< (32 - k)) % 2 ^ 32

/-- The table `_K` of round constants -/
def sha256K : List Nat :=
  [0x428a2f98, 0x71374491, 0xb5c0fbcf, 0xe9b5dba5, 0x3956c25b, 0x59f111f1, 0x923f82a4, 0xab1c5ed5,
   0xd807aa98, 0x12835b01, 0x243185be, 0x550c7dc3, 0x72be5d74, 0x80deb1fe, 0x9bdc06a7, 0xc19bf174,
   0xe49b69c1, 0xefbe4786, 0x0fc19dc6, 0x240ca1cc, 0x2de92c6f, 0x4a7484aa, 0x5cb0a9dc, 0x76f988da,
   0x983e5152, 0xa831c66d, 0xb00327c8, 0xbf597fc7, 0xc6e00bf3, 0xd5a79147, 0x06ca6351, 0x14292967,
   0x27b70a85, 0x2e1b2138, 0x4d2c6dfc, 0x53380d13, 0x650a7354, 0x766a0abb, 0x81c2c92e, 0x92722c85,
   0xa2bfe8a1, 0xa81a664b, 0xc24b8b70, 0xc76c51a3, 0xd192e819, 0xd6990624, 0xf40e3585, 0x106aa070,
   0x19a4c116, 0x1e376c08, 0x2748774c, 0x34b0bcb5, 0x391c0cb3, 0x4ed8aa4a, 0x5b9cca4f, 0x682e6ff3,
   0x748f82ee, 0x78a5636f, 0x84c87814, 0x8cc70208, 0x90befffa, 0xa4506ceb, 0xbef9a3f7, 0xc67178f2]

/-- The eight words of a hash value, or of the working variables of a block -/
structure Words8 where
  a : Nat
  b : Nat
  c : Nat
  d : Nat
  e : Nat
  f : Nat
  g : Nat
  h : Nat
  deriving DecidableEq

/-- The initial hash value `init0 .. init7` -/
def sha256Init : Words8 :=
  ⟨0x6a09e667, 0xbb67ae85, 0x3c6ef372, 0xa54ff53a, 0x510e527f, 0x9b05688c, 0x1f83d9ab, 0x5be0cd19⟩

/-- The big-endian word made of the four bytes at the head of `p` -/
def beUint32 (p : List Nat) : Nat :=
  (p.getD 0 0 % 256) <<< 24 ||| (p.getD 1 0 % 256) <<< 16 ||| (p.getD 2 0 % 256) <<< 8
    ||| p.getD 3 0 % 256

/-- The first sixteen words `w[0..15]` of the message schedule of a block:
`n` words read from `p` -/
def scheduleInit : Nat → List Nat → List Nat
  | 0, _ => []
  | n + 1, p => beUint32 p :: scheduleInit n (p.drop 4)

/-- The words `w[16..63]` of the message schedule: `n` more words after `w` -/
def scheduleExtend : Nat → List Nat → List Nat
  | 0, w => w
  | n + 1, w =>
    let i := w.length
    let v1 := w.getD (i - 2) 0
    let t1 := rotateRight32 v1 17 ^^^ rotateRight32 v1 19 ^^^ v1 >>> 10
    let v2 := w.getD (i - 15) 0
    let t2 := rotateRight32 v2 7 ^^^ rotateRight32 v2 18 ^^^ v2 >>> 3
    scheduleExtend n (w ++ [(t1 + w.getD (i - 7) 0 + t2 + w.getD (i - 16) 0) % 2 ^ 32])

/-- One of the 64 rounds of a block, with round constant `k` and schedule word `w` -/
def sha256Round (s : Words8) (kw : Nat × Nat) : Words8 :=
  let t1 := (s.h + (rotateRight32 s.e 6 ^^^ rotateRight32 s.e 11 ^^^ rotateRight32 s.e 25)
    + (s.e &&& s.f ^^^ (s.e ^^^ 0xffffffff) &&& s.g) + kw.1 + kw.2) % 2 ^ 32
  let t2 := ((rotateRight32 s.a 2 ^^^ rotateRight32 s.a 13 ^^^ rotateRight32 s.a 22)
    + (s.a &&& s.b ^^^ s.a &&& s.c ^^^ s.b &&& s.c)) % 2 ^ 32
  { a := (t1 + t2) % 2 ^ 32, b := s.a, c := s.b, d := s.c,
    e := (s.d + t1) % 2 ^ 32, f := s.e, g := s.f, h := s.g }

/-- The body of the loop of `blockGeneric`: the hash value after one more
block of 64 bytes -/
def sha256Block (hv : Words8) (p : List Nat) : Words8 :=
  let w := scheduleExtend 48 (scheduleInit 16 p)
  let s := (sha256K.zip w).foldl sha256Round hv
  { a := (hv.a + s.a) % 2 ^ 32, b := (hv.b + s.b) % 2 ^ 32, c := (hv.c + s.c) % 2 ^ 32,
    d := (hv.d + s.d) % 2 ^ 32, e := (hv.e + s.e) % 2 ^ 32, f := (hv.f + s.f) % 2 ^ 32,
    g := (hv.g + s.g) % 2 ^ 32, h := (hv.h + s.h) % 2 ^ 32 }

/-- The loop of `blockGeneric` over `n` blocks of `p` -/
def sha256Blocks : Nat → Words8 → List Nat → Words8
  | 0, hv, _ => hv
  | n + 1, hv, p => sha256Blocks n (sha256Block hv (p.take 64)) (p.drop 64)

/-- The function `blockGeneric`: every whole block of `p`, in order -/
def blockGeneric (hv : Words8) (p : List Nat) : Words8 :=
  sha256Blocks (p.length / 64) hv p

/-- The type `digest` of `crypto/sha256`: the hash value `h`, the bytes
`x[:nx]` of the block that is not yet full, and the number `len` of bytes
written -/
structure digest where
  h : Words8
  x : List Nat
  len : Nat
  deriving DecidableEq

/-- The function `sha256.New`: a hasher in its initial state -/
def digest.New : digest :=
  { h := sha256Init, x := [], len := 0 }

/-- The method `Reset` -/
def digest.Reset ( _d : digest) : digest :=
  { h := sha256Init, x := [], len := 0 }

/-- The method `Write` -/
def digest.Write (d : digest) (p : List Nat) : digest :=
  let d := { d with len := d.len + p.length }
  let dp : digest × List Nat :=
    if d.x.length > 0 then
      let n := min (64 - d.x.length) p.length
      let x := d.x ++ p.take n
      if x.length = 64 then ({ d with h := blockGeneric d.h x, x := [] }, p.drop n)
      else ({ d with x := x }, p.drop n)
    else (d, p)
  let d := dp.1
  let p := dp.2
  let dp : digest × List Nat :=
    if p.length ≥ 64 then
      let n := p.length - p.length % 64
      ({ d with h := blockGeneric d.h (p.take n) }, p.drop n)
    else (d, p)
  let d := dp.1
  let p := dp.2
  if p.length > 0 then { d with x := p } else d

/-- The big-endian bytes of a 32-bit word -/
def bePutUint32 (v : Nat) : List Nat :=
  [v / 2 ^ 24 % 256, v / 2 ^ 16 % 256, v / 2 ^ 8 % 256, v % 256]

/-- The big-endian bytes of a 64-bit word -/
def bePutUint64 (v : Nat) : List Nat :=
  bePutUint32 (v / 2 ^ 32) ++ bePutUint32 v

/-- The method `checkSum`: the padding (a byte `0x80`, zero bytes up to 56
modulo 64, the length in bits) is written, and the hash value is laid out in
32 bytes.  The check of the Go source that the buffer is empty after the
padding is not part of the embedding. -/
def digest.checkSum (d : digest) : List Nat :=
  let len := d.len
  let t := if len % 64 < 56 then 56 - len % 64 else 64 + 56 - len % 64
  let padlen := 0x80 :: List.replicate (t - 1) 0 ++ bePutUint64 (len * 8 % 2 ^ 64)
  let d := d.Write padlen
  bePutUint32 d.h.a ++ bePutUint32 d.h.b ++ bePutUint32 d.h.c ++ bePutUint32 d.h.d
    ++ bePutUint32 d.h.e ++ bePutUint32 d.h.f ++ bePutUint32 d.h.g ++ bePutUint32 d.h.h

/-- The method `Sum(nil)`: the checksum of a copy of the digest, which itself
is left as it is -/
def digest.Sum (d : digest) : List Nat :=
  d.checkSum

/-- The function `sha256.Sum256`: the SHA-256 digest of `data` -/
def Sum256 (data : List Nat) : List Nat :=
  (digest.New.Write data).checkSum

/-- The text `fmt.Sprintf("%x", h)` of a byte slice: two lower-case hexadecimal
digits for every byte -/
def sprintfHex (h : List Nat) : GoString :=
  h.flatMap (fun b => [hexDigit (b / 16 % 16), hexDigit (b % 16)])

/-- The function `serializeAndHash`, with the package variable `hasher` passed
in and out.  The result is the hash and the hasher after the call; the line
printed on standard output is the text of `Marshal entry`. -/
def serializeAndHash (ct : CaseTables) (hasher : digest) (entry : chipJson) :
    GoString × digest :=
  let rawMessage := Marshal entry
  let hasher := hasher.Write rawMessage
  let h := hasher.Sum
  let hasher := hasher.Reset
  (ToUpper ct (sprintfHex h), hasher)

/-! ## Column lookup and line count -/

/-- The loop of `getIndex` from position `index` on -/
def getIndexFrom (ct : CaseTables) (key : GoString) : List GoString → Nat → Int
  | [], _ => -1
  | elem :: rest, index =>
    if ToLower ct elem = key then (index : Int)
    else getIndexFrom ct key rest (index + 1)

/-- The function `getIndex`; when it returns `-1` it has logged
`No Column Named: key` -/
def getIndex (ct : CaseTables) (header : List GoString) (key : GoString) : Int :=
  getIndexFrom ct key header 0

/-- The loop of `countLines`.  A reader is the list of the results of its
successive `Read` calls, each the bytes read and the error returned with
them; a reader that has nothing left returns `0, io.EOF`. -/
def countLinesFrom : List (List Nat × Option ReadError) → Nat → Nat × Option ReadError
  | [], count => (count, none)
  | (buf, err) :: rest, count =>
    let count := count + buf.count 0x0A
    match err with
    | none => countLinesFrom rest count
    | some ReadError.EOF => (count, none)
    | some e => (0, some e)

/-- The function `countLines` -/
def countLines (r : List (List Nat × Option ReadError)) : Nat × Option ReadError :=
  countLinesFrom r 0

/-! ## The row pipeline -/

/-- The six column positions `process` resolves from the header -/
structure Columns where
  nftNameIndex : Int
  nftDescriptionIndex : Int
  nftGenderIndex : Int
  nftAttributeIndex : Int
  nftSeriesNumberIndex : Int
  nftTeamNameIndex : Int
  deriving DecidableEq

/-- The six calls of `getIndex` in `process` -/
def resolveColumns (ct : CaseTables) (header : List GoString) : Columns :=
  { nftNameIndex := getIndex ct header "name".toList
    nftDescriptionIndex := getIndex ct header "description".toList
    nftGenderIndex := getIndex ct header "gender".toList
    nftAttributeIndex := getIndex ct header "attributes".toList
    nftSeriesNumberIndex := getIndex ct header "series number".toList
    nftTeamNameIndex := getIndex ct header "team names".toList }

/-- The variables that live across the records of a run: `teamName`, `line`
and the package variable `hasher` -/
structure LoopState where
  teamName : GoString
  line : Nat
  hasher : digest
  deriving DecidableEq

/-- The effect of one pass of the loop of `process`: the variables after it,
the row handed to the writer, and the object `cJson` built in this pass
(`none` when the pass ends at `continue`) -/
structure RowResult where
  state : LoopState
  written : List GoString
  object : Option chipJson
  deriving DecidableEq

/-- The collection descriptor written in the source -/
def zuriCollection : Collection :=
  { Name := "Zuri NFT Tickets for Free Lunch".toList
    ID := "b774f676-c1d5-422e-beed-00ef5510c64d".toList
    Attributes := { Type_ := "description".toList
                    Value := "Rewards for accomplishments during HNGi9.".toList } }

/-- The body of the loop of `process` for one record read without error.
`header` is the header after `Hash` was appended, `cols` the positions
resolved from it, `numLines` the result of `countLines`. -/
def processRecord (ct : CaseTables) (header : List GoString) (cols : Columns) (numLines : Nat)
    (st : LoopState) (record : List GoString) : Except Fault RowResult := do
  let tn ← index record cols.nftTeamNameIndex
  let teamName := if tn ≠ [] then tn else st.teamName
  let nameCell ← index record cols.nftNameIndex
  if nameCell = [] then
    let seriesCell ← index record cols.nftSeriesNumberIndex
    let line := if seriesCell ≠ [] then st.line + 1 else st.line
    pure { state := { teamName := teamName, line := line, hasher := st.hasher }
           written := record
           object := none }
  else
    let genderCell ← index record cols.nftGenderIndex
    let attributes : List Attribute :=
      [{ TraitType := "gender".toList, Value := TrimSpace genderCell }]
    let attributes ←
      if cols.nftAttributeIndex > -1 then do
        let attributesCell ← index record (getIndex ct header "attributes".toList)
        let parsed ← serializeAttributes attributesCell
        pure (attributes ++ parsed)
      else pure attributes
    let nameCell ← index record cols.nftNameIndex
    let descriptionCell ← index record cols.nftDescriptionIndex
    let cJson : chipJson :=
      { Format := "CHIP-0007".toList
        Name := TrimSpace nameCell
        Description := TrimSpace descriptionCell
        MintingTool := teamName
        SensitiveContent := false
        SeriesNumber := st.line
        SeriesTotal := numLines
        Attributes := attributes
        Collection := zuriCollection }
    let line := st.line + 1
    let hashed := serializeAndHash ct st.hasher cJson
    pure { state := { teamName := teamName, line := line, hasher := hashed.2 }
           written := record ++ [hashed.1]
           object := some cJson }

/-- The loop of `process` over the records the reader still holds -/
def processRecords (ct : CaseTables) (header : List GoString) (cols : Columns) (numLines : Nat) :
    LoopState → List (List GoString) → Except Fault (List RowResult)
  | _, [] => pure []
  | st, record :: rest => do
    let r ← processRecord ct header cols numLines st record
    let rs ← processRecords ct header cols numLines r.state rest
    pure (r :: rs)

/-- What a run of `process` that returns no error has done: the header row
written first and the passes of the loop, in order -/
structure ProcessResult where
  header : List GoString
  rows : List RowResult
  deriving DecidableEq

/-- The rows of the output file of a run, the header first -/
def ProcessResult.output (r : ProcessResult) : List (List GoString) :=
  r.header :: r.rows.map (fun row => row.written)

/-- The function `process`.  `hasher` is the package variable as `main` left
it, `r` the input file as the reader `countLines` consumes, `records` the
records the CSV reader finds in the same bytes (the header first). -/
def process (ct : CaseTables) (hasher : digest) (r : List (List Nat × Option ReadError))
    (records : List (List GoString)) : Except Fault ProcessResult :=
  match countLines r with
  | (_, some err) => .error (.countFailed err)
  | (numLines, none) =>
    match records with
    | [] => .error .emptyFile
    | header :: rest =>
      let header := header ++ ["Hash".toList]
      let cols := resolveColumns ct header
      match processRecords ct header cols numLines
          { teamName := [], line := 1, hasher := hasher } rest with
      | .error e => .error e
      | .ok rows => .ok { header := header, rows := rows }

/-- The call of `process` in `main`, after `hasher = sha256.New()` -/
def run (ct : CaseTables) (r : List (List Nat × Option ReadError))
    (records : List (List GoString)) : Except Fault ProcessResult :=
  process ct digest.New r records

/-! ## Definitions used in the statements -/

/-- The struct literal `cJson` of `process`, as a function of the values it is
filled with -/
def builtObject (teamName nameCell descriptionCell : GoString) (line numLines : Nat)
    (attributes : List Attribute) : chipJson :=
  { Format := "CHIP-0007".toList
    Name := TrimSpace nameCell
    Description := TrimSpace descriptionCell
    MintingTool := teamName
    SensitiveContent := false
    SeriesNumber := line
    SeriesTotal := numLines
    Attributes := attributes
    Collection := zuriCollection }

/-- The attribute `gender` that opens the attributes of every object -/
def genderAttribute (genderCell : GoString) : Attribute :=
  { TraitType := "gender".toList, Value := TrimSpace genderCell }

/-- Calls of `serializeAndHash` one after another on the objects of a list,
each with the hasher the call before left: the hash returned by every call
and the hasher after it -/
def hashInTurn (ct : CaseTables) : digest → List chipJson → List (GoString × digest)
  | _, [] => []
  | hasher, entry :: rest =>
    let r := serializeAndHash ct hasher entry
    r :: hashInTurn ct r.2 rest

/-- The upper-case hexadecimal SHA-256 digest of the JSON text of an object,
computed on its own -/
def hashAlone (ct : CaseTables) (entry : chipJson) : GoString :=
  ToUpper ct (sprintfHex (Sum256 (Marshal entry)))

/-- The cell of `record` at position `i`, the empty string when there is none -/
def cellAt (record : List GoString) (i : Int) : GoString :=
  match index record i with
  | .ok cell => cell
  | .error _ => []

/-- The team name in effect after the rows `rows`, in the words of the
specification: the team-name cell of the latest row whose team-name cell is
not empty, and the empty string when there is no such row -/
def teamNameInEffect (teamIndex : Int) (rows : List (List GoString)) : GoString :=
  ((rows.filter (fun row => cellAt row teamIndex ≠ [])).map
    (fun row => cellAt row teamIndex)).getLast?.getD []

/-- A header in the layout of the input files -/
def sampleHeader : List GoString :=
  ["TEAM NAMES".toList, "Series Number".toList, "Filename".toList, "Name".toList,
   "Description".toList, "Gender".toList, "Attributes".toList, "UUID".toList]

/-- A header as `process` uses it, with the column `Hash` appended -/
def sampleHeaderHash : List GoString :=
  sampleHeader ++ ["Hash".toList]

/-- A data row that opens a team -/
def sampleRowBevel : List GoString :=
  ["Bevel".toList, "1".toList, "adewale".toList, "Adewale".toList,
   "Adewale likes to gossip ".toList, " Male".toList,
   "Teeth Color: Brown, Eye Color: Blue".toList, "u-1".toList]

/-- A data row with a name and no team name -/
def sampleRowNoTeam : List GoString :=
  ["".toList, "2".toList, "alli".toList, "Alli".toList,
   "Alli likes tea".toList, "Female".toList, "hair: bald; link: http://x".toList,
   "u-2".toList]

/-- A data row without a name -/
def sampleRowBlank : List GoString :=
  ["".toList, "".toList, "".toList, "".toList, "".toList, "".toList, "".toList, "".toList]

/-- The variables of `process` before the first record, the hasher as `main`
made it -/
def initialState : LoopState :=
  { teamName := [], line := 1, hasher := digest.New }

/-- A reader that hands over four lines in two reads and then ends -/
def sampleReader : List (List Nat × Option ReadError) :=
  [([0x61, 0x0A, 0x62, 0x0A], none), ([0x63, 0x0A, 0x0A], none), ([], some ReadError.EOF)]

/-- A file in the layout of the input files -/
def sampleRecords : List (List GoString) :=
  [sampleHeader, sampleRowBevel, sampleRowBlank, sampleRowNoTeam]

/-- A header without the column of team names -/
def headerWithoutTeam : List GoString :=
  ["Series Number".toList, "Name".toList, "Description".toList, "Gender".toList,
   "Attributes".toList]

/-- A data row under `headerWithoutTeam` -/
def rowWithoutTeam : List GoString :=
  ["1".toList, "Adewale".toList, "Adewale likes to gossip".toList, "Male".toList,
   "hair: bald".toList]

/-- The row `sampleRowBevel` with a space after the name -/
def sampleRowBevelSpaced : List GoString :=
  ["Bevel".toList, "1".toList, "adewale".toList, "Adewale ".toList,
   "Adewale likes to gossip ".toList, " Male".toList,
   "Teeth Color: Brown, Eye Color: Blue".toList, "u-1".toList]

/-- The row `sampleRowBevel` with a name of `k + 1` letters `a` -/
def sampleRowNamed (k : Nat) : List GoString :=
  ["Bevel".toList, "1".toList, "adewale".toList, List.replicate (k + 1) 'a',
   "Adewale likes to gossip ".toList, " Male".toList,
   "Teeth Color: Brown, Eye Color: Blue".toList, "u-1".toList]

/-- The value of a lower-case hexadecimal digit -/
def hexValue (c : Char) : Nat :=
  "0123456789abcdef".toList.indexOf c

/-- Reads one rune of a JSON string back from the head of a text: the rune
and the text after its escape; `none` at the closing quote -/
def jsonUnescapeHead (s : GoString) : Option (Char × GoString) :=
  match s with
  | [] => none
  | c :: rest =>
    if c = '"' then none
    else if c ≠ '\\' then some (c, rest)
    else
      match rest with
      | [] => none
      | e :: rest2 =>
        if e = 'u' then
          match rest2 with
          | a :: _ :: h :: l :: rest3 =>
            if a = '0' then some (Char.ofNat (16 * hexValue h + hexValue l), rest3)
            else some (Char.ofNat (0x2020 + hexValue l), rest3)
          | _ => none
        else if e = 'b' then some (Char.ofNat 0x08, rest2)
        else if e = 'f' then some (Char.ofNat 0x0C, rest2)
        else if e = 'n' then some (Char.ofNat 0x0A, rest2)
        else if e = 'r' then some (Char.ofNat 0x0D, rest2)
        else if e = 't' then some (Char.ofNat 0x09, rest2)
        else some (e, rest2)

/-- The number a text of decimal digits stands for -/
def decimalValue (s : GoString) : Nat :=
  s.foldl (fun acc c => 10 * acc + (c.toNat - '0'.toNat)) 0

/-- Two strings are equal ignoring letter case when their lower-case forms are
the same -/
abbrev sameIgnoringCase (ct : CaseTables) (a b : GoString) : Prop :=
  ToLower ct a = ToLower ct b

/-- A header without the column of attributes -/
def headerWithoutAttributes : List GoString :=
  ["Team Names".toList, "Name".toList, "Description".toList, "Gender".toList, "Hash".toList]

/-- A data row under `headerWithoutAttributes` -/
def rowWithoutAttributes : List GoString :=
  ["Bevel".toList, "Adewale".toList, " Adewale likes to gossip".toList, "Male ".toList]

/-- A row advances the running ordinal, in the words of the specification,
when its name cell is not empty or its series-number cell is not empty -/
def advancesOrdinal (nameIndex seriesIndex : Int) (row : List GoString) : Bool :=
  decide (cellAt row nameIndex ≠ []) || decide (cellAt row seriesIndex ≠ [])

/-- The text of a small input file: the header, a line that only carries a
team name, a blank line and one data line -/
def smallFileText : GoString :=
  ("Team Names,Series Number,Name,Description,Gender,Attributes\n"
    ++ "Bevel,,,,,\n" ++ "\n" ++ ",1,Adewale,tall,Male,hair: bald\n").toList

/-- The header of `smallFileText` -/
def smallFileHeader : List GoString :=
  ["Team Names".toList, "Series Number".toList, "Name".toList, "Description".toList,
   "Gender".toList, "Attributes".toList]

/-- The line of `smallFileText` that only carries a team name -/
def smallFileTeamRow : List GoString :=
  ["Bevel".toList, [], [], [], [], []]

/-- The data line of `smallFileText` -/
def smallFileDataRow : List GoString :=
  [[], "1".toList, "Adewale".toList, "tall".toList, "Male".toList, "hair: bald".toList]

/-- The records the CSV reader finds in `smallFileText` (it passes over the
blank line) -/
def smallFileRecords : List (List GoString) :=
  [smallFileHeader, smallFileTeamRow, smallFileDataRow]

/-- A reader that hands over `smallFileText` in one read -/
def smallFileReader : List (List Nat × Option ReadError) :=
  [(utf8Bytes smallFileText, some ReadError.EOF)]

/-- A data row of one cell only -/
def shortRow : List GoString :=
  ["Bevel".toList]

/-- An attribute written in the format of the parser: the trait, `:`, the
value -/
def formatAttribute (a : Attribute) : GoString :=
  a.TraitType ++ ':' :: a.Value

/-- A sequence of attributes written in the format of the parser: every
attribute as trait, `:`, value, the entries joined by `;` -/
def formatAttributes : List Attribute → GoString
  | [] => []
  | [a] => formatAttribute a
  | a :: b :: rest => formatAttribute a ++ ';' :: formatAttributes (b :: rest)

/-- A text that holds none of `:`, `;`, `,` and has no white space at either
end -/
def Tidy (x : GoString) : Prop :=
  (∀ c ∈ x, c ≠ ':' ∧ c ≠ ';' ∧ c ≠ ',') ∧
    (∀ c, x.head? = some c → unicodeIsSpace c = false) ∧
    (∀ c, x.getLast? = some c → unicodeIsSpace c = false)

/-- The six field names `process` looks up in the header -/
def recognisedKeys : List GoString :=
  ["name".toList, "description".toList, "gender".toList, "attributes".toList,
   "series number".toList, "team names".toList]

/-! # Verification -/

/-! ## Splitting and trimming -/

theorem Split_ne_nil (s : GoString) (sep : Char) : Split s sep ≠ [] := by
  cases s with
  | nil => simp [Split]
  | cons c rest =>
    unfold Split
    split_ifs
    · simp
    · split <;> simp

theorem Split_of_not_mem (sep : Char) : ∀ s : GoString, sep ∉ s → Split s sep = [s]
  | [], _ => rfl
  | c :: rest, h => by
    have hc : c ≠ sep := fun e => h (by simp [e])
    have hrest : sep ∉ rest := fun e => h (List.mem_cons_of_mem _ e)
    simp [Split, hc, Split_of_not_mem sep rest hrest]

theorem Split_append_sep (sep : Char) (v : GoString) :
    ∀ t : GoString, sep ∉ t → Split (t ++ sep :: v) sep = t :: Split v sep
  | [], _ => by simp [Split]
  | c :: rest, h => by
    have hc : c ≠ sep := fun e => h (by simp [e])
    have hrest : sep ∉ rest := fun e => h (List.mem_cons_of_mem _ e)
    simp [Split, hc, Split_append_sep sep v rest hrest]

theorem Split_length (sep : Char) : ∀ s : GoString, (Split s sep).length = s.count sep + 1
  | [] => rfl
  | c :: rest => by
    have ih := Split_length sep rest
    unfold Split
    by_cases hc : c = sep
    · subst hc
      simp [ih]
    · have hne := Split_ne_nil rest sep
      cases hs : Split rest sep with
      | nil => exact absurd hs hne
      | cons piece pieces =>
        rw [hs] at ih
        simp [hc, List.count_cons] at ih ⊢
        omega

theorem Split_mem_subset (sep : Char) :
    ∀ (s : GoString) (p : GoString), p ∈ Split s sep → ∀ c ∈ p, c ∈ s
  | [], p, hp, c, hc => by
    simp [Split] at hp
    subst hp
    exact hc
  | a :: rest, p, hp, c, hc => by
    unfold Split at hp
    by_cases ha : a = sep
    · simp only [ha, if_true, List.mem_cons] at hp
      rcases hp with rfl | hp
      · simp at hc
      · exact List.mem_cons_of_mem _ (Split_mem_subset sep rest p hp c hc)
    · simp only [ha, if_false] at hp
      cases hs : Split rest sep with
      | nil => exact absurd hs (Split_ne_nil rest sep)
      | cons piece pieces =>
        rw [hs] at hp
        simp only [List.mem_cons] at hp
        rcases hp with rfl | hp
        · rcases List.mem_cons.mp hc with rfl | hc
          · simp
          · exact List.mem_cons_of_mem _
              (Split_mem_subset sep rest piece (by rw [hs]; simp) c hc)
        · exact List.mem_cons_of_mem _
            (Split_mem_subset sep rest p (by rw [hs]; exact List.mem_cons_of_mem _ hp) c hc)

theorem Split_one_sep (sep : Char) (e : GoString) (h : e.count sep = 1) :
    ∃ t v, e = t ++ sep :: v ∧ sep ∉ t ∧ sep ∉ v ∧ Split e sep = [t, v] := by
  have hmem : sep ∈ e := List.count_pos_iff.mp (by omega)
  obtain ⟨t, v, rfl⟩ := List.append_of_mem hmem
  simp only [List.count_append, List.count_cons_self] at h
  have ht : sep ∉ t := fun hm => by
    have := List.count_pos_iff.mpr hm
    omega
  have hv : sep ∉ v := fun hm => by
    have := List.count_pos_iff.mpr hm
    omega
  exact ⟨t, v, rfl, ht, hv, by rw [Split_append_sep sep v t ht, Split_of_not_mem sep v hv]⟩

theorem TrimFunc_subset (f : Char → Bool) (s : GoString) : ∀ c ∈ TrimFunc s f, c ∈ s := by
  intro c hc
  unfold TrimFunc at hc
  rw [List.mem_reverse] at hc
  have h1 := (List.dropWhile_sublist f).subset hc
  rw [List.mem_reverse] at h1
  exact (List.dropWhile_sublist f).subset h1

theorem TrimFunc_eq_self (f : Char → Bool) (s : GoString) (h : ∀ c ∈ s, f c = false) :
    TrimFunc s f = s := by
  have h1 : ∀ l : GoString, (∀ c ∈ l, f c = false) → l.dropWhile f = l := by
    intro l hl
    cases l with
    | nil => rfl
    | cons a t => simp [List.dropWhile, hl a (by simp)]
  unfold TrimFunc
  rw [h1 s h, h1 s.reverse (fun c hc => h c (List.mem_reverse.mp hc)), List.reverse_reverse]

theorem Trim_comma_eq_self (s : GoString) (h : ',' ∉ s) : Trim s ",".toList = s := by
  apply TrimFunc_eq_self
  intro c hc
  have : c ≠ ',' := fun e => h (e ▸ hc)
  simp [this]

theorem TrimSpace_replicate_a (n : Nat) :
    TrimSpace (List.replicate n 'a') = List.replicate n 'a' := by
  apply TrimFunc_eq_self
  intro c hc
  rw [List.eq_of_mem_replicate hc]
  decide

/-! ## The attribute parser -/

theorem replacerLookup_separators_new (s old new : GoString)
    (h : replacerLookup attributeSeparators s = some (old, new)) : new = [';'] := by
  have hmem := List.mem_of_find?_eq_some h
  simp [attributeSeparators] at hmem
  rcases hmem with ⟨-, rfl⟩ | ⟨-, rfl⟩ | ⟨-, rfl⟩ | ⟨-, rfl⟩ <;> rfl

theorem replacerLookup_separators_none (c : Char) (rest : GoString)
    (h : replacerLookup attributeSeparators (c :: rest) = none) : c ≠ ',' := by
  intro hc
  subst hc
  have := List.find?_eq_none.mp h (",".toList, ";".toList) (by simp [attributeSeparators])
  simp [List.isPrefixOf] at this

theorem replaceFrom_no_comma :
    ∀ (s : GoString) (skip : Nat), ',' ∉ replaceFrom attributeSeparators skip s
  | [], skip => by cases skip <;> simp [replaceFrom]
  | c :: rest, skip + 1 => by
    rw [replaceFrom]
    exact replaceFrom_no_comma rest skip
  | c :: rest, 0 => by
    rw [replaceFrom]
    cases h : replacerLookup attributeSeparators (c :: rest) with
    | none =>
      have hc := replacerLookup_separators_none c rest h
      simp only [List.mem_cons, not_or]
      exact ⟨fun e => hc e.symm, replaceFrom_no_comma rest 0⟩
    | some p =>
      obtain ⟨old, new⟩ := p
      have hn := replacerLookup_separators_new _ old new h
      subst hn
      simp only [List.mem_append, List.mem_singleton, not_or]
      exact ⟨by decide, replaceFrom_no_comma rest _⟩

theorem serializeEntries_total :
    ∀ entries : List GoString, ∃ out, ∀ result, serializeEntries entries result = .ok (result ++ out)
  | [] => ⟨[], fun result => by simp [serializeEntries, pure, Except.pure]⟩
  | entry :: rest => by
    obtain ⟨out, hout⟩ := serializeEntries_total rest
    by_cases hlen : (Split entry ':').length = 2
    · match hs : Split entry ':', hlen with
      | [t, v], _ =>
        refine ⟨⟨TrimSpace t, Trim (TrimSpace v) ",".toList⟩ :: out, fun result => ?_⟩
        rw [serializeEntries]
        simp [hs, index, bind, Except.bind, hout]
    · refine ⟨out, fun result => ?_⟩
      rw [serializeEntries]
      simp [hlen, hout]

theorem serializeEntries_append (pre post : List GoString) (a b : List Attribute)
    (ha : serializeEntries pre [] = .ok a) (hb : serializeEntries post [] = .ok b) :
    ∀ result, serializeEntries (pre ++ post) result = .ok (result ++ a ++ b) := by
  induction pre generalizing a with
  | nil =>
    intro result
    simp [serializeEntries, pure, Except.pure] at ha
    subst ha
    obtain ⟨out, hout⟩ := serializeEntries_total post
    have := hout []
    rw [hb] at this
    simp at this
    subst this
    simpa using hout result
  | cons entry rest ih =>
    intro result
    obtain ⟨out, hout⟩ := serializeEntries_total rest
    have hrest := hout []
    simp only [List.nil_append] at hrest
    have ih' := ih out hrest
    by_cases hlen : (Split entry ':').length = 2
    · match hs : Split entry ':', hlen with
      | [t, v], _ =>
        rw [serializeEntries] at ha
        simp [hs, index, bind, Except.bind, hout] at ha
        subst ha
        rw [List.cons_append, serializeEntries]
        simp [hs, index, bind, Except.bind, ih']
    · rw [serializeEntries] at ha
      simp [hlen, hout] at ha
      subst ha
      rw [List.cons_append, serializeEntries]
      simp [hlen, ih']

theorem serializeEntries_dropped (e : GoString) (h : e.count ':' ≠ 1) :
    serializeEntries [e] [] = .ok [] := by
  have hlen : (Split e ':').length ≠ 2 := by
    rw [Split_length]
    omega
  rw [serializeEntries]
  simp [hlen, serializeEntries, pure, Except.pure]

theorem serializeEntries_kept (t v : GoString) (ht : ':' ∉ t) (hv : ':' ∉ v) :
    serializeEntries [t ++ ':' :: v] []
      = .ok [{ TraitType := TrimSpace t, Value := Trim (TrimSpace v) ",".toList }] := by
  rw [serializeEntries, Split_append_sep ':' v t ht, Split_of_not_mem ':' v hv]
  simp [index, bind, Except.bind, serializeEntries, pure, Except.pure]

theorem serializeAttributes_eq (s : GoString) :
    serializeAttributes s
      = serializeEntries (Split (replaceFrom attributeSeparators 0 s) ';') [] := by
  unfold serializeAttributes
  have := Split_ne_nil (replaceFrom attributeSeparators 0 s) ';'
  simp [List.length_eq_zero, this]

theorem serializeAttributes_around (s : GoString) (pre post : List GoString) (e : GoString)
    (hsplit : Split (replaceFrom attributeSeparators 0 s) ';' = pre ++ e :: post) :
    ∃ a m b, serializeEntries pre [] = .ok a ∧ serializeEntries [e] [] = .ok m ∧
      serializeEntries post [] = .ok b ∧ serializeEntries (pre ++ post) [] = .ok (a ++ b) ∧
      serializeAttributes s = .ok (a ++ m ++ b) := by
  obtain ⟨a, ha⟩ := serializeEntries_total pre
  obtain ⟨m, hm⟩ := serializeEntries_total [e]
  obtain ⟨b, hb⟩ := serializeEntries_total post
  have ha' := ha []
  have hm' := hm []
  have hb' := hb []
  simp only [List.nil_append] at ha' hm' hb'
  refine ⟨a, m, b, ha', hm', hb', ?_, ?_⟩
  · simpa using serializeEntries_append pre post a b ha' hb' []
  · rw [serializeAttributes_eq, hsplit]
    have h1 := serializeEntries_append [e] post m b hm' hb' []
    simp only [List.nil_append, List.singleton_append] at h1
    have h2 := serializeEntries_append pre (e :: post) a (m ++ b) ha' h1 []
    simpa [List.append_assoc] using h2

/-! ## The hash: 64 upper-case hexadecimal digits, finitely many values -/

theorem checkSum_length (d : digest) : d.checkSum.length = 32 := by
  simp [digest.checkSum, bePutUint32]

theorem checkSum_bytes (d : digest) : ∀ b ∈ d.checkSum, b < 256 := by
  intro b hb
  simp only [digest.checkSum, bePutUint32, List.mem_append, List.mem_cons, List.mem_singleton,
    List.not_mem_nil, or_false] at hb
  have h256 : ∀ n : Nat, n % 256 < 256 := fun n => Nat.mod_lt _ (by norm_num)
  rcases hb with ((((((hb | hb) | hb) | hb) | hb) | hb) | hb) | hb <;>
    rcases hb with rfl | rfl | rfl | rfl <;> exact h256 _

theorem sprintfHex_length (h : List Nat) : (sprintfHex h).length = 2 * h.length := by
  induction h with
  | nil => rfl
  | cons b t ih => simp [sprintfHex, List.flatMap_cons] at ih ⊢; omega

theorem toUpper_hexDigit (ct : CaseTables) (k : Nat) (hk : k < 16) :
    unicodeToUpper ct (hexDigit k) ∈ "0123456789ABCDEF".toList := by
  interval_cases k <;> simp [unicodeToUpper, hexDigit]

theorem serializeAndHash_length (ct : CaseTables) (hasher : digest) (entry : chipJson) :
    (serializeAndHash ct hasher entry).1.length = 64 := by
  simp [serializeAndHash, ToUpper, sprintfHex_length, digest.Sum, checkSum_length]

theorem serializeAndHash_upperHex (ct : CaseTables) (hasher : digest) (entry : chipJson) :
    ∀ c ∈ (serializeAndHash ct hasher entry).1, c ∈ "0123456789ABCDEF".toList := by
  intro c hc
  simp only [serializeAndHash, ToUpper, sprintfHex, List.mem_map, List.mem_flatMap] at hc
  obtain ⟨x, ⟨b, -, hx⟩, rfl⟩ := hc
  simp only [List.mem_cons, List.mem_singleton, List.not_mem_nil, or_false] at hx
  rcases hx with rfl | rfl
  · exact toUpper_hexDigit ct _ (Nat.mod_lt _ (by norm_num))
  · exact toUpper_hexDigit ct _ (Nat.mod_lt _ (by norm_num))

theorem serializeAndHash_fresh (ct : CaseTables) (entry : chipJson) :
    serializeAndHash ct digest.New entry = (hashAlone ct entry, digest.New) := by
  rfl

theorem hashInTurn_fresh (ct : CaseTables) (entries : List chipJson) :
    hashInTurn ct digest.New entries = entries.map (fun e => (hashAlone ct e, digest.New)) := by
  induction entries with
  | nil => rfl
  | cons e rest ih =>
    simp only [hashInTurn, List.map_cons, serializeAndHash_fresh]
    rw [ih]

theorem ofDigits_256_inj :
    ∀ l1 l2 : List Nat, l1.length = l2.length → (∀ b ∈ l1, b < 256) → (∀ b ∈ l2, b < 256) →
      Nat.ofDigits 256 l1 = Nat.ofDigits 256 l2 → l1 = l2
  | [], [], _, _, _, _ => rfl
  | [], _ :: _, hlen, _, _, _ => by simp at hlen
  | _ :: _, [], hlen, _, _, _ => by simp at hlen
  | d1 :: t1, d2 :: t2, hlen, h1, h2, heq => by
    have hd1 := h1 d1 (by simp)
    have hd2 := h2 d2 (by simp)
    simp only [Nat.ofDigits_cons, Nat.cast_id] at heq
    have hd : d1 = d2 := by omega
    have ht : Nat.ofDigits 256 t1 = Nat.ofDigits 256 t2 := by omega
    have := ofDigits_256_inj t1 t2 (by simpa using hlen)
      (fun b hb => h1 b (List.mem_cons_of_mem _ hb))
      (fun b hb => h2 b (List.mem_cons_of_mem _ hb)) ht
    rw [hd, this]

theorem finite_checkSums :
    Set.Finite {l : List Nat | l.length = 32 ∧ ∀ b ∈ l, b < 256} := by
  apply Set.Finite.of_finite_image (f := Nat.ofDigits 256)
  · apply (Set.finite_Iio (256 ^ 32)).subset
    rintro n ⟨l, hl, rfl⟩
    have := Nat.ofDigits_lt_base_pow_length (b := 256) (l := l) (by norm_num) hl.2
    rw [hl.1] at this
    exact this
  · intro l1 h1 l2 h2 heq
    exact ofDigits_256_inj l1 l2 (h1.1.trans h2.1.symm) h1.2 h2.2 heq

theorem hashAlone_collision (ct : CaseTables) (obj : Nat → chipJson) :
    ∃ j k, j ≠ k ∧ hashAlone ct (obj j) = hashAlone ct (obj k) := by
  by_contra hno
  have hinj : Function.Injective (fun k => hashAlone ct (obj k)) := by
    intro j k h
    by_contra hjk
    exact hno ⟨j, k, hjk, h⟩
  have hfin : Set.Finite ((fun l => ToUpper ct (sprintfHex l)) ''
      {l : List Nat | l.length = 32 ∧ ∀ b ∈ l, b < 256}) :=
    finite_checkSums.image _
  refine Set.infinite_of_injective_forall_mem hinj (fun k => ?_) hfin
  exact ⟨Sum256 (Marshal (obj k)), ⟨checkSum_length _, checkSum_bytes _⟩, rfl⟩

/-! ## One pass of the loop of `process` -/

theorem exists_ok_of_toBool {ε α : Type} (x : Except ε α) (h : x.toBool = true) :
    ∃ a, x = .ok a := by
  cases x with
  | error e => simp [Except.toBool] at h
  | ok a => exact ⟨a, rfl⟩

theorem cellAt_of_index (record : List GoString) (i : Int) (cell : GoString)
    (h : index record i = .ok cell) : cellAt record i = cell := by
  simp [cellAt, h]

theorem processRecord_name_ok (ct : CaseTables) (header : List GoString) (cols : Columns)
    (numLines : Nat) (st : LoopState) (record : List GoString) (res : RowResult)
    (hres : processRecord ct header cols numLines st record = .ok res) :
    ∃ tn nameCell, index record cols.nftTeamNameIndex = .ok tn ∧
      index record cols.nftNameIndex = .ok nameCell := by
  unfold processRecord at hres
  cases hteam : index record cols.nftTeamNameIndex with
  | error e => simp [hteam, bind, Except.bind] at hres
  | ok tn =>
    cases hname : index record cols.nftNameIndex with
    | error e => simp [hteam, hname, bind, Except.bind] at hres
    | ok nameCell => exact ⟨tn, nameCell, rfl, rfl⟩

theorem processRecord_skip (ct : CaseTables) (header : List GoString) (cols : Columns)
    (numLines : Nat) (st : LoopState) (record : List GoString) (res : RowResult)
    (hname : index record cols.nftNameIndex = .ok [])
    (hres : processRecord ct header cols numLines st record = .ok res) :
    ∃ tn seriesCell,
      index record cols.nftTeamNameIndex = .ok tn ∧
      index record cols.nftSeriesNumberIndex = .ok seriesCell ∧
      res =
        { state :=
            { teamName := if tn ≠ [] then tn else st.teamName
              line := if seriesCell ≠ [] then st.line + 1 else st.line
              hasher := st.hasher }
          written := record
          object := none } := by
  unfold processRecord at hres
  cases hteam : index record cols.nftTeamNameIndex with
  | error e => simp [hteam, bind, Except.bind] at hres
  | ok tn =>
    cases hser : index record cols.nftSeriesNumberIndex with
    | error e => simp [hteam, hname, hser, bind, Except.bind] at hres
    | ok sn =>
      simp [hteam, hname, hser, bind, Except.bind, pure, Except.pure] at hres
      exact ⟨tn, sn, rfl, rfl, by rw [← hres]; simp⟩

theorem processRecord_build (ct : CaseTables) (header : List GoString) (cols : Columns)
    (numLines : Nat) (st : LoopState) (record : List GoString) (res : RowResult)
    (nameCell : GoString)
    (hname : index record cols.nftNameIndex = .ok nameCell) (hne : nameCell ≠ [])
    (hres : processRecord ct header cols numLines st record = .ok res) :
    ∃ tn genderCell descriptionCell attributes,
      index record cols.nftTeamNameIndex = .ok tn ∧
      index record cols.nftGenderIndex = .ok genderCell ∧
      index record cols.nftDescriptionIndex = .ok descriptionCell ∧
      ((cols.nftAttributeIndex > -1 ∧ ∃ cell parsed,
          index record (getIndex ct header "attributes".toList) = .ok cell ∧
          serializeAttributes cell = .ok parsed ∧
          attributes = genderAttribute genderCell :: parsed) ∨
       (¬ cols.nftAttributeIndex > -1 ∧ attributes = [genderAttribute genderCell])) ∧
      res =
        { state :=
            { teamName := if tn ≠ [] then tn else st.teamName
              line := st.line + 1
              hasher := (serializeAndHash ct st.hasher
                (builtObject (if tn ≠ [] then tn else st.teamName) nameCell descriptionCell
                  st.line numLines attributes)).2 }
          written := record ++ [(serializeAndHash ct st.hasher
                (builtObject (if tn ≠ [] then tn else st.teamName) nameCell descriptionCell
                  st.line numLines attributes)).1]
          object := some (builtObject (if tn ≠ [] then tn else st.teamName) nameCell
                  descriptionCell st.line numLines attributes) } := by
  unfold processRecord at hres
  generalize getIndex ct header "attributes".toList = k at hres ⊢
  cases hteam : index record cols.nftTeamNameIndex with
  | error e => simp [hteam, bind, Except.bind] at hres
  | ok tn =>
    cases hgen : index record cols.nftGenderIndex with
    | error e => simp [hteam, hname, hne, hgen, bind, Except.bind] at hres
    | ok g =>
      cases hdesc : index record cols.nftDescriptionIndex with
      | error e =>
        by_cases hcol : cols.nftAttributeIndex > -1
        · cases hcell : index record k with
          | error e => simp [hteam, hname, hne, hgen, hdesc, hcol, hcell, bind, Except.bind] at hres
          | ok cell =>
            cases hp : serializeAttributes cell with
            | error e =>
              simp [hteam, hname, hne, hgen, hdesc, hcol, hcell, hp, bind, Except.bind] at hres
            | ok parsed =>
              simp [hteam, hname, hne, hgen, hdesc, hcol, hcell, hp, bind, Except.bind,
                pure, Except.pure] at hres
        · simp [hteam, hname, hne, hgen, hdesc, hcol, bind, Except.bind, pure, Except.pure] at hres
      | ok d =>
        by_cases hcol : cols.nftAttributeIndex > -1
        · cases hcell : index record k with
          | error e => simp [hteam, hname, hne, hgen, hdesc, hcol, hcell, bind, Except.bind] at hres
          | ok cell =>
            cases hp : serializeAttributes cell with
            | error e =>
              simp [hteam, hname, hne, hgen, hdesc, hcol, hcell, hp, bind, Except.bind] at hres
            | ok parsed =>
              simp [hteam, hname, hne, hgen, hdesc, hcol, hcell, hp, bind, Except.bind,
                pure, Except.pure] at hres
              refine ⟨tn, g, d, _, rfl, rfl, rfl, Or.inl ⟨hcol, cell, parsed, rfl, hp, rfl⟩, ?_⟩
              rw [← hres]
              simp [builtObject, genderAttribute]
        · simp [hteam, hname, hne, hgen, hdesc, hcol, bind, Except.bind, pure, Except.pure] at hres
          refine ⟨tn, g, d, _, rfl, rfl, rfl, Or.inr ⟨hcol, rfl⟩, ?_⟩
          rw [← hres]
          simp [builtObject, genderAttribute]

theorem processRecord_completes (ct : CaseTables) (header : List GoString) (cols : Columns)
    (numLines : Nat) (st : LoopState) (record : List GoString)
    (tn nameCell genderCell descriptionCell : GoString)
    (hteam : index record cols.nftTeamNameIndex = .ok tn)
    (hname : index record cols.nftNameIndex = .ok nameCell) (hne : nameCell ≠ [])
    (hgender : index record cols.nftGenderIndex = .ok genderCell)
    (hdesc : index record cols.nftDescriptionIndex = .ok descriptionCell)
    (hattr : cols.nftAttributeIndex > -1 →
      ∃ cell, index record (getIndex ct header "attributes".toList) = .ok cell) :
    ∃ res, processRecord ct header cols numLines st record = .ok res := by
  unfold processRecord
  generalize getIndex ct header "attributes".toList = k at hattr ⊢
  by_cases hcol : cols.nftAttributeIndex > -1
  · obtain ⟨cell, hcell⟩ := hattr hcol
    obtain ⟨parsed, hparsed⟩ : ∃ parsed, serializeAttributes cell = .ok parsed := by
      obtain ⟨out, hout⟩ :=
        serializeEntries_total (Split (replaceFrom attributeSeparators 0 cell) ';')
      exact ⟨out, by rw [serializeAttributes_eq]; simpa using hout []⟩
    simp [hteam, hname, hne, hgender, hdesc, hcol, hcell, hparsed, bind, Except.bind, pure,
      Except.pure]
  · simp [hteam, hname, hne, hgender, hdesc, hcol, bind, Except.bind, pure, Except.pure]

theorem processRecord_cases (ct : CaseTables) (header : List GoString) (cols : Columns)
    (numLines : Nat) (st : LoopState) (record : List GoString) (r : RowResult)
    (hres : processRecord ct header cols numLines st record = .ok r) :
    ∃ tn nameCell,
      index record cols.nftTeamNameIndex = .ok tn ∧
      index record cols.nftNameIndex = .ok nameCell ∧
      r.state.teamName = (if tn ≠ [] then tn else st.teamName) ∧
      ((nameCell = [] ∧ r.object = none ∧ ∃ seriesCell,
          index record cols.nftSeriesNumberIndex = .ok seriesCell ∧
          r.state.line = if seriesCell ≠ [] then st.line + 1 else st.line) ∨
       (nameCell ≠ [] ∧ r.state.line = st.line + 1 ∧ ∃ obj,
          r.object = some obj ∧ obj.MintingTool = r.state.teamName ∧
          obj.SeriesNumber = st.line ∧ obj.SeriesTotal = numLines)) := by
  obtain ⟨tn, nameCell, hteam, hname⟩ :=
    processRecord_name_ok ct header cols numLines st record r hres
  by_cases hne : nameCell = []
  · subst hne
    obtain ⟨tn', sn, hteam', hser, rfl⟩ :=
      processRecord_skip ct header cols numLines st record r hname hres
    rw [hteam] at hteam'
    have := Except.ok.inj hteam'
    subst this
    exact ⟨tn, [], hteam, hname, rfl, Or.inl ⟨rfl, rfl, sn, hser, rfl⟩⟩
  · obtain ⟨tn', g, d, attrs, hteam', -, -, -, rfl⟩ :=
      processRecord_build ct header cols numLines st record r nameCell hname hne hres
    rw [hteam] at hteam'
    have := Except.ok.inj hteam'
    subst this
    exact ⟨tn, nameCell, hteam, hname, rfl, Or.inr ⟨hne, rfl, _, rfl, rfl, rfl, rfl⟩⟩

theorem processRecord_object (ct : CaseTables) (header : List GoString) (cols : Columns)
    (numLines : Nat) (st : LoopState) (record : List GoString) (r : RowResult)
    (nameCell : GoString)
    (hname : index record cols.nftNameIndex = .ok nameCell) (hne : nameCell ≠ [])
    (hres : processRecord ct header cols numLines st record = .ok r) :
    ∃ attributes,
      ((cols.nftAttributeIndex > -1 ∧ ∃ parsed,
          serializeAttributes (cellAt record (getIndex ct header "attributes".toList))
            = .ok parsed ∧
          attributes = genderAttribute (cellAt record cols.nftGenderIndex) :: parsed) ∨
       (¬ cols.nftAttributeIndex > -1 ∧
          attributes = [genderAttribute (cellAt record cols.nftGenderIndex)])) ∧
      r.object = some (builtObject r.state.teamName nameCell
        (cellAt record cols.nftDescriptionIndex) st.line numLines attributes) ∧
      r.written = record ++ [(serializeAndHash ct st.hasher
        (builtObject r.state.teamName nameCell
          (cellAt record cols.nftDescriptionIndex) st.line numLines attributes)).1] ∧
      r.written.getLast? = some (serializeAndHash ct st.hasher
        (builtObject r.state.teamName nameCell
          (cellAt record cols.nftDescriptionIndex) st.line numLines attributes)).1 := by
  obtain ⟨tn, g, d, attrs, -, hg, hd, hattrs, rfl⟩ :=
    processRecord_build ct header cols numLines st record r nameCell hname hne hres
  rw [cellAt_of_index record _ g hg, cellAt_of_index record _ d hd]
  refine ⟨attrs, ?_, rfl, rfl, by simp⟩
  rcases hattrs with ⟨hcol, cell, parsed, hcell, hparsed, rfl⟩ | ⟨hno, rfl⟩
  · exact Or.inl ⟨hcol, parsed, by rw [cellAt_of_index record _ cell hcell]; exact hparsed, rfl⟩
  · exact Or.inr ⟨hno, rfl⟩

theorem sampleRowNamed_run (k : Nat) :
    processRecord asciiCase sampleHeaderHash (resolveColumns asciiCase sampleHeaderHash) 4
        initialState (sampleRowNamed k)
      = .ok
        { state :=
            { teamName := "Bevel".toList, line := 2, hasher := digest.New }
          written := sampleRowNamed k ++
            [hashAlone asciiCase (builtObject "Bevel".toList (List.replicate (k + 1) 'a')
              "Adewale likes to gossip ".toList 1 4
              [genderAttribute " Male".toList,
               { TraitType := "Teeth Color".toList, Value := "Brown".toList },
               { TraitType := "Eye Color".toList, Value := "Blue".toList }])]
          object := some (builtObject "Bevel".toList (List.replicate (k + 1) 'a')
              "Adewale likes to gossip ".toList 1 4
              [genderAttribute " Male".toList,
               { TraitType := "Teeth Color".toList, Value := "Brown".toList },
               { TraitType := "Eye Color".toList, Value := "Blue".toList }]) } := by
  have hteam : index (sampleRowNamed k)
      (resolveColumns asciiCase sampleHeaderHash).nftTeamNameIndex = .ok "Bevel".toList := rfl
  have hname : index (sampleRowNamed k)
      (resolveColumns asciiCase sampleHeaderHash).nftNameIndex
        = .ok (List.replicate (k + 1) 'a') := rfl
  have hgender : index (sampleRowNamed k)
      (resolveColumns asciiCase sampleHeaderHash).nftGenderIndex = .ok " Male".toList := rfl
  have hdesc : index (sampleRowNamed k)
      (resolveColumns asciiCase sampleHeaderHash).nftDescriptionIndex
        = .ok "Adewale likes to gossip ".toList := rfl
  have hcell : index (sampleRowNamed k) (getIndex asciiCase sampleHeaderHash "attributes".toList)
      = .ok "Teeth Color: Brown, Eye Color: Blue".toList := rfl
  have hparsed : serializeAttributes "Teeth Color: Brown, Eye Color: Blue".toList
      = .ok [{ TraitType := "Teeth Color".toList, Value := "Brown".toList },
             { TraitType := "Eye Color".toList, Value := "Blue".toList }] := rfl
  have hne : List.replicate (k + 1) 'a' ≠ [] := by simp [List.replicate_succ]
  obtain ⟨res, hres⟩ := processRecord_completes asciiCase sampleHeaderHash
    (resolveColumns asciiCase sampleHeaderHash) 4 initialState (sampleRowNamed k) _ _ _ _
    hteam hname hne hgender hdesc (fun _ => ⟨_, hcell⟩)
  obtain ⟨tn, g, d, attrs, hteam', hgender', hdesc', hattrs, hform⟩ :=
    processRecord_build asciiCase sampleHeaderHash (resolveColumns asciiCase sampleHeaderHash) 4
      initialState (sampleRowNamed k) res _ hname hne hres
  rw [hteam] at hteam'
  rw [hgender] at hgender'
  rw [hdesc] at hdesc'
  have h1 := Except.ok.inj hteam'
  have h2 := Except.ok.inj hgender'
  have h3 := Except.ok.inj hdesc'
  subst h1 h2 h3
  rcases hattrs with ⟨-, cell, parsed, hcell', hparsed', rfl⟩ | ⟨hno, -⟩
  · rw [hcell] at hcell'
    have h4 := Except.ok.inj hcell'
    subst h4
    rw [hparsed] at hparsed'
    have h5 := Except.ok.inj hparsed'
    subst h5
    rw [hres, hform]
    simp [initialState, serializeAndHash_fresh]
  · exact absurd (by decide) hno

/-! ## The loop of `process` -/

theorem processRecords_cons (ct : CaseTables) (header : List GoString) (cols : Columns)
    (numLines : Nat) (st : LoopState) (record : List GoString) (rest : List (List GoString))
    (rs : List RowResult)
    (h : processRecords ct header cols numLines st (record :: rest) = .ok rs) :
    ∃ r rs', processRecord ct header cols numLines st record = .ok r ∧
      processRecords ct header cols numLines r.state rest = .ok rs' ∧ rs = r :: rs' := by
  unfold processRecords at h
  cases h1 : processRecord ct header cols numLines st record with
  | error e => simp [h1, bind, Except.bind] at h
  | ok r =>
    cases h2 : processRecords ct header cols numLines r.state rest with
    | error e => simp [h1, h2, bind, Except.bind] at h
    | ok rs' =>
      simp [h1, h2, bind, Except.bind, pure, Except.pure] at h
      exact ⟨r, rs', rfl, h2, h.symm⟩

theorem processRecords_nil (ct : CaseTables) (header : List GoString) (cols : Columns)
    (numLines : Nat) (st : LoopState) (rs : List RowResult)
    (h : processRecords ct header cols numLines st [] = .ok rs) : rs = [] := by
  simp [processRecords, pure, Except.pure] at h
  exact h

theorem process_ok (ct : CaseTables) (hasher : digest) (r : List (List Nat × Option ReadError))
    (records : List (List GoString)) (res : ProcessResult)
    (h : process ct hasher r records = .ok res) :
    ∃ header rest, records = header :: rest ∧ (countLines r).2 = none ∧
      res.header = header ++ ["Hash".toList] ∧
      processRecords ct (header ++ ["Hash".toList])
        (resolveColumns ct (header ++ ["Hash".toList])) (countLines r).1
        { teamName := [], line := 1, hasher := hasher } rest = .ok res.rows := by
  unfold process at h
  rcases hc : countLines r with ⟨n, _ | e⟩
  · cases records with
    | nil => simp [hc] at h
    | cons header rest =>
      simp only [hc] at h
      cases hp : processRecords ct (header ++ ["Hash".toList])
        (resolveColumns ct (header ++ ["Hash".toList])) n
        { teamName := [], line := 1, hasher := hasher } rest with
      | error e => rw [hp] at h; simp at h
      | ok rows =>
        rw [hp] at h
        simp only [Except.ok.injEq] at h
        subst h
        exact ⟨header, rest, rfl, rfl, rfl, hp⟩
  · simp [hc] at h

theorem processRecords_hasher_fresh (ct : CaseTables) (header : List GoString) (cols : Columns)
    (numLines : Nat) (records : List (List GoString)) :
    ∀ (st : LoopState) (rs : List RowResult), st.hasher = digest.New →
      processRecords ct header cols numLines st records = .ok rs →
      ∀ row ∈ rs, row.state.hasher = digest.New ∧
        ∀ obj, row.object = some obj → row.written.getLast? = some (hashAlone ct obj) := by
  induction records with
  | nil =>
    intro st rs _ h row hrow
    rw [processRecords_nil ct header cols numLines st rs h] at hrow
    simp at hrow
  | cons record rest ih =>
    intro st rs hst h row hrow
    obtain ⟨r, rs', h1, h2, rfl⟩ := processRecords_cons ct header cols numLines st record rest rs h
    have hr : r.state.hasher = digest.New ∧
        ∀ obj, r.object = some obj → r.written.getLast? = some (hashAlone ct obj) := by
      obtain ⟨tn, nameCell, -, hname⟩ :=
        processRecord_name_ok ct header cols numLines st record r h1
      by_cases hne : nameCell = []
      · subst hne
        obtain ⟨tn, sn, -, -, rfl⟩ := processRecord_skip ct header cols numLines st record r hname h1
        exact ⟨hst, by simp⟩
      · obtain ⟨tn, g, d, attrs, -, -, -, -, rfl⟩ :=
          processRecord_build ct header cols numLines st record r nameCell hname hne h1
        simp only [hst, serializeAndHash_fresh]
        refine ⟨trivial, ?_⟩
        intro obj hobj
        simp only [Option.some.injEq] at hobj
        subst hobj
        simp
    rcases List.mem_cons.mp hrow with rfl | hmem
    · exact hr
    · exact ih r.state rs' hr.1 h2 row hmem

theorem getLast?_cons_getD (a x : GoString) (l : List GoString) :
    (a :: l).getLast?.getD x = l.getLast?.getD a := by
  cases l with
  | nil => rfl
  | cons b t =>
    rw [List.getLast?_cons_cons]
    simp [List.getLast?_eq_getLast]

theorem processRecords_minting (ct : CaseTables) (header : List GoString) (cols : Columns)
    (numLines : Nat) (rows : List (List GoString)) :
    ∀ (st : LoopState) (rs : List RowResult),
      processRecords ct header cols numLines st rows = .ok rs →
      ∀ (i : Nat) (record : List GoString) (nameCell : GoString), rows[i]? = some record →
        index record cols.nftNameIndex = .ok nameCell → nameCell ≠ [] →
        ∃ row obj, rs[i]? = some row ∧ row.object = some obj ∧
          obj.MintingTool =
            (((rows.take (i + 1)).filter
                (fun row => cellAt row cols.nftTeamNameIndex ≠ [])).map
              (fun row => cellAt row cols.nftTeamNameIndex)).getLast?.getD st.teamName := by
  induction rows with
  | nil => intro st rs _ i record nameCell hi; simp at hi
  | cons first rest ih =>
    intro st rs h i record nameCell hi hname hne
    obtain ⟨r, rs', h1, h2, rfl⟩ := processRecords_cons ct header cols numLines st first rest rs h
    obtain ⟨tn, nc, hteam, hname', hstate, hcase⟩ :=
      processRecord_cases ct header cols numLines st first r h1
    have hcell := cellAt_of_index first _ tn hteam
    cases i with
    | zero =>
      simp only [List.getElem?_cons_zero, Option.some.injEq] at hi
      subst hi
      rw [hname] at hname'
      have := Except.ok.inj hname'
      subst this
      rcases hcase with ⟨hempty, -⟩ | ⟨-, -, obj, hobj, hmint, -, -⟩
      · exact absurd hempty hne
      · refine ⟨r, obj, by simp, hobj, ?_⟩
        rw [hmint, hstate]
        by_cases htn : tn = [] <;> simp [List.filter, hcell, htn]
    | succ j =>
      simp only [List.getElem?_cons_succ] at hi
      obtain ⟨row, obj, hrow, hobj, hmint⟩ := ih r.state rs' h2 j record nameCell hi hname hne
      refine ⟨row, obj, by simpa using hrow, hobj, ?_⟩
      rw [hmint, hstate, List.take_succ_cons]
      by_cases htn : tn = []
      · simp [List.filter, hcell, htn]
      · simp only [List.filter, hcell, htn, ne_eq, not_false_eq_true, decide_True, List.map_cons,
          if_true]
        rw [getLast?_cons_getD]

theorem processRecords_series (ct : CaseTables) (header : List GoString) (cols : Columns)
    (numLines : Nat) (rows : List (List GoString)) :
    ∀ (st : LoopState) (rs : List RowResult),
      processRecords ct header cols numLines st rows = .ok rs →
      (∀ record ∈ rows, ∃ nameCell, index record cols.nftNameIndex = .ok nameCell ∧
        nameCell ≠ []) →
      rs.length = rows.length ∧
      ∀ i, i < rows.length → ∃ row obj, rs[i]? = some row ∧ row.object = some obj ∧
        obj.SeriesNumber = st.line + i ∧ obj.SeriesTotal = numLines := by
  induction rows with
  | nil =>
    intro st rs h _
    rw [processRecords_nil ct header cols numLines st rs h]
    exact ⟨rfl, fun i hi => absurd hi (by simp)⟩
  | cons first rest ih =>
    intro st rs h hall
    obtain ⟨r, rs', h1, h2, rfl⟩ := processRecords_cons ct header cols numLines st first rest rs h
    obtain ⟨tn, nc, -, hname', -, hcase⟩ :=
      processRecord_cases ct header cols numLines st first r h1
    obtain ⟨nameCell, hname, hne⟩ := hall first (by simp)
    rw [hname] at hname'
    have := Except.ok.inj hname'
    subst this
    obtain ⟨hlen, hrest⟩ := ih r.state rs' h2 (fun record hm => hall record (by simp [hm]))
    rcases hcase with ⟨hempty, -⟩ | ⟨-, hline, obj, hobj, -, hnum, htot⟩
    · exact absurd hempty hne
    · refine ⟨by simp [hlen], fun i hi => ?_⟩
      cases i with
      | zero => exact ⟨r, obj, by simp, hobj, by simpa using hnum, htot⟩
      | succ j =>
        obtain ⟨row, obj', hrow, hobj', hnum', htot'⟩ := hrest j (by simpa using hi)
        exact ⟨row, obj', by simpa using hrow, hobj', by rw [hnum', hline]; omega, htot'⟩

theorem processRecord_skip_completes (ct : CaseTables) (header : List GoString) (cols : Columns)
    (numLines : Nat) (st : LoopState) (record : List GoString) (tn seriesCell : GoString)
    (hteam : index record cols.nftTeamNameIndex = .ok tn)
    (hname : index record cols.nftNameIndex = .ok [])
    (hseries : index record cols.nftSeriesNumberIndex = .ok seriesCell) :
    ∃ res, processRecord ct header cols numLines st record = .ok res := by
  unfold processRecord
  simp [hteam, hname, hseries, bind, Except.bind, pure, Except.pure]

/-! ## The JSON text determines the object

These lemmas are about strings that are valid UTF-8, as all strings of the
embedding are.  They say nothing of cells that are not valid UTF-8, whose
invalid bytes `encoding/json` all writes as the one escape of U+FFFD; no claim
rests on them. -/

theorem hexValue_hexDigit (k : Nat) (hk : k < 16) : hexValue (hexDigit k) = k := by
  interval_cases k <;> rfl

theorem jsonUnescapeHead_escape (r : Char) (rest : GoString) :
    jsonUnescapeHead (jsonEscapeRune r ++ rest) = some (r, rest) := by
  unfold jsonEscapeRune
  simp only
  split_ifs with h1 h2 h3 h4 h5 h6 h7 h8
  · rcases h1 with rfl | rfl <;> simp [jsonUnescapeHead]
  · have : r = Char.ofNat 0x08 := by rw [← h2, Char.ofNat_toNat]
    subst this
    simp [jsonUnescapeHead]
  · have : r = Char.ofNat 0x0C := by rw [← h3, Char.ofNat_toNat]
    subst this
    simp [jsonUnescapeHead]
  · have : r = Char.ofNat 0x0A := by rw [← h4, Char.ofNat_toNat]
    subst this
    simp [jsonUnescapeHead]
  · have : r = Char.ofNat 0x0D := by rw [← h5, Char.ofNat_toNat]
    subst this
    simp [jsonUnescapeHead]
  · have : r = Char.ofNat 0x09 := by rw [← h6, Char.ofNat_toNat]
    subst this
    simp [jsonUnescapeHead]
  · have hlt : r.toNat < 128 := by
      rcases h7 with h | rfl | rfl | rfl
      · omega
      · decide
      · decide
      · decide
    have hv : 16 * hexValue (hexDigit (r.toNat / 16)) + hexValue (hexDigit (r.toNat % 16))
        = r.toNat := by
      rw [hexValue_hexDigit _ (by omega), hexValue_hexDigit _ (by omega)]
      omega
    simp [jsonUnescapeHead, hv]
  · have hv : 0x2020 + hexValue (hexDigit (r.toNat % 16)) = r.toNat := by
      rw [hexValue_hexDigit _ (by omega)]
      omega
    simp [jsonUnescapeHead, hv]
  · push_neg at h1
    simp [jsonUnescapeHead, h1.1, h1.2]

theorem jsonUnescapeHead_quote (rest : GoString) : jsonUnescapeHead ('"' :: rest) = none := by
  simp [jsonUnescapeHead]

theorem jsonRunes_inj :
    ∀ (s1 s2 r1 r2 : GoString),
      s1.flatMap jsonEscapeRune ++ '"' :: r1 = s2.flatMap jsonEscapeRune ++ '"' :: r2 →
      s1 = s2 ∧ r1 = r2
  | [], [], r1, r2, h => by simpa using h
  | [], c :: t, r1, r2, h => by
    have := congrArg jsonUnescapeHead h
    simp only [List.flatMap_nil, List.nil_append, List.flatMap_cons, List.append_assoc,
      jsonUnescapeHead_quote, jsonUnescapeHead_escape] at this
    exact absurd this (by simp)
  | c :: t, [], r1, r2, h => by
    have := congrArg jsonUnescapeHead h
    simp only [List.flatMap_nil, List.nil_append, List.flatMap_cons, List.append_assoc,
      jsonUnescapeHead_quote, jsonUnescapeHead_escape] at this
    exact absurd this (by simp)
  | c1 :: t1, c2 :: t2, r1, r2, h => by
    have := congrArg jsonUnescapeHead h
    simp only [List.flatMap_cons, List.append_assoc, jsonUnescapeHead_escape, Option.some.injEq,
      Prod.mk.injEq] at this
    obtain ⟨hc, hrest⟩ := this
    obtain ⟨ht, hr⟩ := jsonRunes_inj t1 t2 r1 r2 hrest
    exact ⟨by rw [hc, ht], hr⟩

theorem jsonString_inj (s1 s2 r1 r2 : GoString)
    (h : jsonString s1 ++ r1 = jsonString s2 ++ r2) : s1 = s2 ∧ r1 = r2 := by
  unfold jsonString at h
  simp only [List.cons_append, List.append_assoc, List.singleton_append, List.cons.injEq,
    true_and] at h
  exact jsonRunes_inj s1 s2 r1 r2 h

theorem prefix_before_sep_unique (sep : Char) :
    ∀ (a b r1 r2 : GoString), sep ∉ a → sep ∉ b → a ++ sep :: r1 = b ++ sep :: r2 →
      a = b ∧ r1 = r2
  | [], [], r1, r2, _, _, h => by simpa using h
  | [], c :: t, r1, r2, _, hb, h => by
    simp only [List.nil_append, List.cons_append, List.cons.injEq] at h
    exact absurd (by simp [h.1]) hb
  | c :: t, [], r1, r2, ha, _, h => by
    simp only [List.nil_append, List.cons_append, List.cons.injEq] at h
    exact absurd (by simp [h.1]) ha
  | c1 :: t1, c2 :: t2, r1, r2, ha, hb, h => by
    simp only [List.cons_append, List.cons.injEq] at h
    obtain ⟨ht, hr⟩ := prefix_before_sep_unique sep t1 t2 r1 r2
      (fun hm => ha (List.mem_cons_of_mem _ hm)) (fun hm => hb (List.mem_cons_of_mem _ hm)) h.2
    exact ⟨by rw [h.1, ht], hr⟩

theorem digitChar_value (k : Nat) (hk : k < 10) :
    (Nat.digitChar k).toNat - '0'.toNat = k ∧ Nat.digitChar k ≠ ',' := by
  interval_cases k <;> decide

theorem decimalValue_append_singleton (pre : GoString) (c : Char) :
    decimalValue (pre ++ [c]) = 10 * decimalValue pre + (c.toNat - '0'.toNat) := by
  simp [decimalValue, List.foldl_append]

theorem toDigitsCore_value :
    ∀ (fuel n : Nat) (ds : List Char), n < fuel →
      ∃ pre, Nat.toDigitsCore 10 fuel n ds = pre ++ ds ∧ decimalValue pre = n ∧ ',' ∉ pre
  | 0, n, ds, h => absurd h (Nat.not_lt_zero n)
  | fuel + 1, n, ds, h => by
    obtain ⟨hval, hne⟩ := digitChar_value (n % 10) (Nat.mod_lt _ (by norm_num))
    unfold Nat.toDigitsCore
    by_cases hz : n / 10 = 0
    · refine ⟨[Nat.digitChar (n % 10)], by simp [hz], ?_, by simpa using hne.symm⟩
      simp only [decimalValue, List.foldl_cons, List.foldl_nil, hval]
      omega
    · obtain ⟨pre, hpre, hv, hno⟩ :=
        toDigitsCore_value fuel (n / 10) (Nat.digitChar (n % 10) :: ds) (by omega)
      refine ⟨pre ++ [Nat.digitChar (n % 10)], by simp [hz, hpre], ?_, ?_⟩
      · rw [decimalValue_append_singleton, hv, hval]
        omega
      · simp only [List.mem_append, List.mem_singleton, not_or]
        exact ⟨hno, hne.symm⟩

theorem jsonInt_value (n : Nat) : decimalValue (jsonInt n) = n ∧ ',' ∉ jsonInt n := by
  obtain ⟨pre, hpre, hv, hno⟩ := toDigitsCore_value (n + 1) n [] (Nat.lt_succ_self n)
  have : jsonInt n = pre := by
    simp only [List.append_nil] at hpre
    rw [← hpre]
    rfl
  rw [this]
  exact ⟨hv, hno⟩

theorem jsonInt_inj (n1 n2 : Nat) (r1 r2 : GoString)
    (h : jsonInt n1 ++ ',' :: r1 = jsonInt n2 ++ ',' :: r2) : n1 = n2 ∧ r1 = r2 := by
  obtain ⟨heq, hr⟩ := prefix_before_sep_unique ',' _ _ r1 r2 (jsonInt_value n1).2
    (jsonInt_value n2).2 h
  have := congrArg decimalValue heq
  rw [(jsonInt_value n1).1, (jsonInt_value n2).1] at this
  exact ⟨this, hr⟩

theorem jsonBool_inj (b1 b2 : Bool) (r1 r2 : GoString)
    (h : jsonBool b1 ++ r1 = jsonBool b2 ++ r2) : b1 = b2 ∧ r1 = r2 := by
  cases b1 <;> cases b2 <;> simp_all [jsonBool]

theorem jsonAttribute_inj (a b : Attribute) (r1 r2 : GoString)
    (h : jsonAttribute a ++ r1 = jsonAttribute b ++ r2) : a = b ∧ r1 = r2 := by
  unfold jsonAttribute at h
  simp only [List.append_assoc] at h
  have h1 := List.append_cancel_left h
  obtain ⟨ht, h2⟩ := jsonString_inj _ _ _ _ h1
  have h3 := List.append_cancel_left h2
  obtain ⟨hv, h4⟩ := jsonString_inj _ _ _ _ h3
  have h5 := List.append_cancel_left h4
  cases a
  cases b
  simp only at ht hv
  exact ⟨by rw [ht, hv], h5⟩

theorem jsonAttribute_tail_inj :
    ∀ (t1 t2 : List Attribute) (r1 r2 : GoString),
      t1.flatMap (fun b => ',' :: jsonAttribute b) ++ ']' :: r1
        = t2.flatMap (fun b => ',' :: jsonAttribute b) ++ ']' :: r2 →
      t1 = t2 ∧ r1 = r2
  | [], [], r1, r2, h => by simpa using h
  | [], b :: t, r1, r2, h => by
    simp only [List.flatMap_nil, List.nil_append, List.flatMap_cons, List.cons_append,
      List.cons.injEq] at h
    exact absurd h.1 (by decide)
  | a :: t, [], r1, r2, h => by
    simp only [List.flatMap_nil, List.nil_append, List.flatMap_cons, List.cons_append,
      List.cons.injEq] at h
    exact absurd h.1 (by decide)
  | a :: t1, b :: t2, r1, r2, h => by
    simp only [List.flatMap_cons, List.cons_append, List.cons.injEq, true_and,
      List.append_assoc] at h
    obtain ⟨hab, hrest⟩ := jsonAttribute_inj a b _ _ h
    obtain ⟨ht, hr⟩ := jsonAttribute_tail_inj t1 t2 r1 r2 hrest
    exact ⟨by rw [hab, ht], hr⟩

theorem jsonAttributes_inj (l1 l2 : List Attribute) (r1 r2 : GoString)
    (h : jsonAttributes l1 ++ r1 = jsonAttributes l2 ++ r2) : l1 = l2 ∧ r1 = r2 := by
  cases l1 with
  | nil =>
    cases l2 with
    | nil => simpa [jsonAttributes] using h
    | cons b t2 =>
      simp only [jsonAttributes, String.toList, List.cons_append, List.cons.injEq] at h
      exact absurd h.1 (by decide)
  | cons a t1 =>
    cases l2 with
    | nil =>
      simp only [jsonAttributes, String.toList, List.cons_append, List.cons.injEq] at h
      exact absurd h.1 (by decide)
    | cons b t2 =>
      simp only [jsonAttributes, String.toList, List.cons_append, List.nil_append,
        List.append_assoc, List.cons.injEq, true_and, List.singleton_append] at h
      obtain ⟨hab, hrest⟩ := jsonAttribute_inj a b _ _ h
      obtain ⟨ht, hr⟩ := jsonAttribute_tail_inj t1 t2 r1 r2 hrest
      exact ⟨by rw [hab, ht], hr⟩

theorem jsonCollection_inj (c1 c2 : Collection) (r1 r2 : GoString)
    (h : jsonCollection c1 ++ r1 = jsonCollection c2 ++ r2) : c1 = c2 ∧ r1 = r2 := by
  unfold jsonCollection at h
  simp only [List.append_assoc] at h
  obtain ⟨hn, h⟩ := jsonString_inj _ _ _ _ (List.append_cancel_left h)
  obtain ⟨hi, h⟩ := jsonString_inj _ _ _ _ (List.append_cancel_left h)
  obtain ⟨ht, h⟩ := jsonString_inj _ _ _ _ (List.append_cancel_left h)
  obtain ⟨hv, h⟩ := jsonString_inj _ _ _ _ (List.append_cancel_left h)
  have hr := List.append_cancel_left h
  obtain ⟨n1, i1, ⟨t1, v1⟩⟩ := c1
  obtain ⟨n2, i2, ⟨t2, v2⟩⟩ := c2
  simp only at hn hi ht hv
  exact ⟨by rw [hn, hi, ht, hv], hr⟩

theorem MarshalText_inj (e1 e2 : chipJson) (h : MarshalText e1 = MarshalText e2) : e1 = e2 := by
  unfold MarshalText at h
  simp only [List.append_assoc] at h
  obtain ⟨hformat, h⟩ := jsonString_inj _ _ _ _ (List.append_cancel_left h)
  obtain ⟨hname, h⟩ := jsonString_inj _ _ _ _ (List.append_cancel_left h)
  obtain ⟨hdesc, h⟩ := jsonString_inj _ _ _ _ (List.append_cancel_left h)
  obtain ⟨hmint, h⟩ := jsonString_inj _ _ _ _ (List.append_cancel_left h)
  obtain ⟨hsens, h⟩ := jsonBool_inj _ _ _ _ (List.append_cancel_left h)
  have h := @List.append_cancel_left _ (",\"series_number\":".toList) _ _ h
  obtain ⟨hnum, h⟩ := jsonInt_inj _ _ _ _ h
  have h := @List.append_cancel_left _ ("\"series_total\":".toList) _ _ h
  obtain ⟨htot, h⟩ := jsonInt_inj _ _ _ _ h
  have h := @List.append_cancel_left _ ("\"attributes\":".toList) _ _ h
  obtain ⟨hattrs, h⟩ := jsonAttributes_inj _ _ _ _ h
  obtain ⟨hcoll, -⟩ := jsonCollection_inj _ _ _ _ (List.append_cancel_left h)
  cases e1
  cases e2
  simp only at hformat hname hdesc hmint hsens hnum htot hattrs hcoll
  simp only [chipJson.mk.injEq]
  exact ⟨hformat, hname, hdesc, hmint, hsens, hnum, htot, hattrs, hcoll⟩

theorem char_eq_of_toNat_eq (r1 r2 : Char) (h : r1.toNat = r2.toNat) : r1 = r2 := by
  rw [← Char.ofNat_toNat r1, ← Char.ofNat_toNat r2, h]

theorem utf8Rune_inj (r1 r2 : Char) (x1 x2 : List Nat)
    (h : utf8Rune r1 ++ x1 = utf8Rune r2 ++ x2) : r1 = r2 ∧ x1 = x2 := by
  unfold utf8Rune at h
  simp only at h
  split_ifs at h <;>
    simp only [List.cons_append, List.nil_append, List.cons.injEq] at h <;>
    first
      | (exfalso; omega)
      | exact ⟨char_eq_of_toNat_eq r1 r2 (by omega), by simp [h]⟩

theorem utf8Bytes_inj : ∀ s1 s2 : GoString, utf8Bytes s1 = utf8Bytes s2 → s1 = s2
  | [], [], _ => rfl
  | [], c :: t, h => by
    have hne : utf8Rune c ≠ [] := by
      unfold utf8Rune
      simp only
      split_ifs <;> simp
    simp only [utf8Bytes, List.flatMap_nil, List.flatMap_cons] at h
    have := congrArg List.length h
    simp only [List.length_nil, List.length_append] at this
    have hl := List.length_pos.mpr hne
    omega
  | c :: t, [], h => by
    have hne : utf8Rune c ≠ [] := by
      unfold utf8Rune
      simp only
      split_ifs <;> simp
    simp only [utf8Bytes, List.flatMap_nil, List.flatMap_cons] at h
    have := congrArg List.length h
    simp only [List.length_nil, List.length_append] at this
    have hl := List.length_pos.mpr hne
    omega
  | c1 :: t1, c2 :: t2, h => by
    simp only [utf8Bytes, List.flatMap_cons] at h
    obtain ⟨hc, ht⟩ := utf8Rune_inj c1 c2 _ _ h
    rw [hc, utf8Bytes_inj t1 t2 ht]

theorem Marshal_inj (e1 e2 : chipJson) (h : Marshal e1 = Marshal e2) : e1 = e2 :=
  MarshalText_inj e1 e2 (utf8Bytes_inj _ _ h)

/-! ## Column lookup and line count -/

theorem getIndexFrom_cases (ct : CaseTables) (key : GoString) :
    ∀ (header : List GoString) (k : Nat),
      (getIndexFrom ct key header k = -1 ∧ ∀ elem ∈ header, ToLower ct elem ≠ key) ∨
      (∃ (i : Nat) (elem : GoString), getIndexFrom ct key header k = ((k + i : Nat) : Int) ∧
        header[i]? = some elem ∧ ToLower ct elem = key ∧
        ∀ (j : Nat) (e : GoString), j < i → header[j]? = some e → ToLower ct e ≠ key)
  | [], k => Or.inl ⟨rfl, by simp⟩
  | first :: rest, k => by
    unfold getIndexFrom
    by_cases h : ToLower ct first = key
    · refine Or.inr ⟨0, first, by simp [h], by simp, h, ?_⟩
      intro j e hj
      exact absurd hj (Nat.not_lt_zero j)
    · rcases getIndexFrom_cases ct key rest (k + 1) with ⟨hres, hno⟩ | ⟨i, elem, hres, hi, hm, hbefore⟩
      · refine Or.inl ⟨by simp [h, hres], ?_⟩
        intro elem hmem
        rcases List.mem_cons.mp hmem with rfl | hmem
        · exact h
        · exact hno elem hmem
      · refine Or.inr ⟨i + 1, elem, by simp [h, hres]; omega, by simpa using hi, hm, ?_⟩
        intro j e hj hje
        cases j with
        | zero =>
          simp only [List.getElem?_cons_zero, Option.some.injEq] at hje
          subst hje
          exact h
        | succ j' =>
          simp only [List.getElem?_cons_succ] at hje
          exact hbefore j' e (by omega) hje

theorem countLinesFrom_chunks (rest : List (List Nat × Option ReadError)) :
    ∀ (chunks : List (List Nat)) (count : Nat),
      countLinesFrom (chunks.map (fun c => (c, none)) ++ rest) count
        = countLinesFrom rest (count + chunks.flatten.count 0x0A)
  | [], count => by simp
  | c :: cs, count => by
    have ih := countLinesFrom_chunks rest cs (count + c.count 0x0A)
    simp only [List.map_cons, List.cons_append, countLinesFrom, List.flatten_cons,
      List.count_append]
    rw [Nat.add_assoc] at ih
    exact ih

theorem processRecord_written (ct : CaseTables) (header : List GoString) (cols : Columns)
    (numLines : Nat) (st : LoopState) (record : List GoString) (r : RowResult)
    (hres : processRecord ct header cols numLines st record = .ok r) :
    r.written = record ∨ ∃ hash, r.written = record ++ [hash] := by
  obtain ⟨tn, nameCell, -, hname⟩ :=
    processRecord_name_ok ct header cols numLines st record r hres
  by_cases hne : nameCell = []
  · subst hne
    obtain ⟨tn', sn, -, -, rfl⟩ :=
      processRecord_skip ct header cols numLines st record r hname hres
    exact Or.inl rfl
  · obtain ⟨tn', g, d, attrs, -, -, -, -, rfl⟩ :=
      processRecord_build ct header cols numLines st record r nameCell hname hne hres
    exact Or.inr ⟨_, rfl⟩

theorem processRecords_written (ct : CaseTables) (header : List GoString) (cols : Columns)
    (numLines : Nat) (rows : List (List GoString)) :
    ∀ (st : LoopState) (rs : List RowResult),
      processRecords ct header cols numLines st rows = .ok rs →
      rs.length = rows.length ∧
      ∀ (i : Nat) (record : List GoString), rows[i]? = some record →
        ∃ row, rs[i]? = some row ∧
          (row.written = record ∨ ∃ hash, row.written = record ++ [hash]) := by
  induction rows with
  | nil =>
    intro st rs h
    rw [processRecords_nil ct header cols numLines st rs h]
    exact ⟨rfl, fun i record hi => by simp at hi⟩
  | cons first rest ih =>
    intro st rs h
    obtain ⟨r, rs', h1, h2, rfl⟩ := processRecords_cons ct header cols numLines st first rest rs h
    obtain ⟨hlen, hrest⟩ := ih r.state rs' h2
    refine ⟨by simp [hlen], fun i record hi => ?_⟩
    cases i with
    | zero =>
      simp only [List.getElem?_cons_zero, Option.some.injEq] at hi
      subst hi
      exact ⟨r, by simp, processRecord_written ct header cols numLines st first r h1⟩
    | succ j =>
      simp only [List.getElem?_cons_succ] at hi
      obtain ⟨row, hrow, hw⟩ := hrest j record hi
      exact ⟨row, by simpa using hrow, hw⟩

theorem processRecord_line (ct : CaseTables) (header : List GoString) (cols : Columns)
    (numLines : Nat) (st : LoopState) (record : List GoString) (r : RowResult)
    (hres : processRecord ct header cols numLines st record = .ok r) :
    r.state.line = st.line +
        (if advancesOrdinal cols.nftNameIndex cols.nftSeriesNumberIndex record then 1 else 0) ∧
      (∀ obj, r.object = some obj →
        obj.SeriesNumber = st.line ∧
        advancesOrdinal cols.nftNameIndex cols.nftSeriesNumberIndex record = true) := by
  obtain ⟨tn, nameCell, -, hname, -, hcase⟩ :=
    processRecord_cases ct header cols numLines st record r hres
  have hcn := cellAt_of_index record _ nameCell hname
  rcases hcase with ⟨hempty, hobj, sn, hser, hline⟩ | ⟨hne, hline, obj, hobj, -, hnum, -⟩
  · have hcs := cellAt_of_index record _ sn hser
    subst hempty
    refine ⟨?_, fun obj ho => by rw [hobj] at ho; simp at ho⟩
    rw [hline]
    by_cases hsn : sn = [] <;> simp [advancesOrdinal, hcn, hcs, hsn]
  · refine ⟨by rw [hline]; simp [advancesOrdinal, hcn, hne], fun obj' ho => ?_⟩
    rw [hobj] at ho
    have := Option.some.inj ho
    subst this
    exact ⟨hnum, by simp [advancesOrdinal, hcn, hne]⟩

theorem countP_take_succ (p : List GoString → Bool) (rows : List (List GoString)) (i : Nat)
    (record : List GoString) (hi : rows[i]? = some record) :
    (rows.take (i + 1)).countP p = (rows.take i).countP p + (if p record then 1 else 0) := by
  rw [List.take_succ, hi]
  simp [List.countP_append, List.countP_cons]

theorem countP_take_mono (p : List GoString → Bool) (rows : List (List GoString)) (i j : Nat)
    (hij : i ≤ j) : (rows.take i).countP p ≤ (rows.take j).countP p := by
  have h : rows.take i = (rows.take j).take i := by
    rw [List.take_take, Nat.min_eq_left hij]
  rw [h]
  exact (List.take_sublist i _).countP_le p

theorem processRecords_line (ct : CaseTables) (header : List GoString) (cols : Columns)
    (numLines : Nat) (rows : List (List GoString)) :
    ∀ (st : LoopState) (rs : List RowResult),
      processRecords ct header cols numLines st rows = .ok rs →
      ∀ (i : Nat) (record : List GoString) (row : RowResult),
        rows[i]? = some record → rs[i]? = some row →
        row.state.line = st.line + (rows.take (i + 1)).countP
          (advancesOrdinal cols.nftNameIndex cols.nftSeriesNumberIndex) ∧
        (∀ obj, row.object = some obj →
          obj.SeriesNumber = st.line + (rows.take i).countP
            (advancesOrdinal cols.nftNameIndex cols.nftSeriesNumberIndex) ∧
          advancesOrdinal cols.nftNameIndex cols.nftSeriesNumberIndex record = true) := by
  induction rows with
  | nil => intro st rs _ i record row hi; simp at hi
  | cons first rest ih =>
    intro st rs h i record row hi hrow
    obtain ⟨r, rs', h1, h2, rfl⟩ := processRecords_cons ct header cols numLines st first rest rs h
    obtain ⟨hline, hobj⟩ := processRecord_line ct header cols numLines st first r h1
    cases i with
    | zero =>
      simp only [List.getElem?_cons_zero, Option.some.injEq] at hi hrow
      subst hi hrow
      refine ⟨?_, fun obj ho => ⟨by simpa using (hobj obj ho).1, (hobj obj ho).2⟩⟩
      rw [hline]
      simp [List.countP_cons]
    | succ j =>
      simp only [List.getElem?_cons_succ] at hi hrow
      obtain ⟨hl, ho⟩ := ih r.state rs' h2 j record row hi hrow
      refine ⟨?_, fun obj hobj' => ⟨?_, (ho obj hobj').2⟩⟩
      · rw [hl, hline, List.take_succ_cons, List.countP_cons]
        omega
      · rw [(ho obj hobj').1, hline, List.take_succ_cons, List.countP_cons]
        omega

/-! ## Parsing the parser's own output -/

theorem dropWhile_eq_self_of_head (f : Char → Bool) (x : GoString)
    (h : ∀ c, x.head? = some c → f c = false) : x.dropWhile f = x := by
  cases x with
  | nil => rfl
  | cons a t => simp [List.dropWhile, h a rfl]

theorem head?_dropWhile_false (f : Char → Bool) (x : GoString) (c : Char)
    (h : (x.dropWhile f).head? = some c) : f c = false := by
  induction x with
  | nil => simp at h
  | cons a t ih =>
    by_cases ha : f a = true
    · rw [List.dropWhile_cons_of_pos ha] at h
      exact ih h
    · rw [List.dropWhile_cons_of_neg ha] at h
      simp only [List.head?_cons, Option.some.injEq] at h
      subst h
      simpa using ha

theorem TrimFunc_head (f : Char → Bool) (s : GoString) (c : Char)
    (h : (TrimFunc s f).head? = some c) : f c = false := by
  unfold TrimFunc at h
  rw [List.head?_reverse] at h
  -- the last rune of what is left of `(s.dropWhile f).reverse` is the first of `s.dropWhile f`
  have hsplit := List.takeWhile_append_dropWhile f (s.dropWhile f).reverse
  have hne : (s.dropWhile f).reverse.dropWhile f ≠ [] := by
    intro he
    rw [he] at h
    simp at h
  have hlast : ((s.dropWhile f).reverse).getLast? = some c := by
    rw [← hsplit, List.getLast?_append_of_ne_nil _ hne]
    exact h
  rw [List.getLast?_reverse] at hlast
  exact head?_dropWhile_false f s c hlast

theorem TrimFunc_getLast (f : Char → Bool) (s : GoString) (c : Char)
    (h : (TrimFunc s f).getLast? = some c) : f c = false := by
  unfold TrimFunc at h
  rw [List.getLast?_reverse] at h
  exact head?_dropWhile_false f _ c h

theorem TrimFunc_eq_self_of_ends (f : Char → Bool) (x : GoString)
    (hh : ∀ c, x.head? = some c → f c = false)
    (hl : ∀ c, x.getLast? = some c → f c = false) : TrimFunc x f = x := by
  unfold TrimFunc
  rw [dropWhile_eq_self_of_head f x hh,
    dropWhile_eq_self_of_head f x.reverse (fun c hc => hl c (by rwa [List.head?_reverse] at hc)),
    List.reverse_reverse]

theorem Tidy_TrimSpace (y : GoString) (h : ∀ c ∈ y, c ≠ ':' ∧ c ≠ ';' ∧ c ≠ ',') :
    Tidy (TrimSpace y) :=
  ⟨fun c hc => h c (TrimFunc_subset _ y c hc), fun c hc => TrimFunc_head _ y c hc,
    fun c hc => TrimFunc_getLast _ y c hc⟩

theorem Tidy_TrimSpace_eq (x : GoString) (h : Tidy x) : TrimSpace x = x :=
  TrimFunc_eq_self_of_ends _ x h.2.1 h.2.2

theorem Tidy_head_ne_space (x : GoString) (h : Tidy x) : x.head? ≠ some ' ' := by
  intro he
  have := h.2.1 ' ' he
  exact absurd this (by decide)

theorem Tidy_getLast_ne_space (x : GoString) (h : Tidy x) : x.getLast? ≠ some ' ' := by
  intro he
  have := h.2.2 ' ' he
  exact absurd this (by decide)

theorem Split_mem_no_sep (sep : Char) :
    ∀ (s : GoString) (p : GoString), p ∈ Split s sep → sep ∉ p
  | [], p, hp => by
    simp [Split] at hp
    subst hp
    simp
  | a :: rest, p, hp => by
    unfold Split at hp
    by_cases ha : a = sep
    · simp only [ha, if_true, List.mem_cons] at hp
      rcases hp with rfl | hp
      · simp
      · exact Split_mem_no_sep sep rest p hp
    · simp only [ha, if_false] at hp
      cases hs : Split rest sep with
      | nil => exact absurd hs (Split_ne_nil rest sep)
      | cons piece pieces =>
        rw [hs] at hp
        simp only [List.mem_cons] at hp
        rcases hp with rfl | hp
        · have hpiece := Split_mem_no_sep sep rest piece (by rw [hs]; simp)
          simp only [List.mem_cons, not_or]
          exact ⟨fun e => ha e.symm, hpiece⟩
        · exact Split_mem_no_sep sep rest p (by rw [hs]; exact List.mem_cons_of_mem _ hp)

theorem serializeEntries_mem :
    ∀ (entries : List GoString) (out : List Attribute),
      serializeEntries entries [] = .ok out →
      ∀ a ∈ out, ∃ e ∈ entries, ∃ t v, e = t ++ ':' :: v ∧ ':' ∉ t ∧ ':' ∉ v ∧
        a = { TraitType := TrimSpace t, Value := Trim (TrimSpace v) ",".toList }
  | [], out, h, a, ha => by
    simp [serializeEntries, pure, Except.pure] at h
    subst h
    simp at ha
  | e :: rest, out, h, a, ha => by
    obtain ⟨m, hm⟩ := serializeEntries_total [e]
    obtain ⟨b, hb⟩ := serializeEntries_total rest
    have hm' := hm []
    have hb' := hb []
    simp only [List.nil_append] at hm' hb'
    have happ := serializeEntries_append [e] rest m b hm' hb' []
    simp only [List.singleton_append, List.nil_append] at happ
    rw [happ] at h
    have hout := Except.ok.inj h
    subst hout
    rcases List.mem_append.mp ha with ham | hab
    · by_cases hone : e.count ':' = 1
      · obtain ⟨t, v, rfl, ht, hv, -⟩ := Split_one_sep ':' e hone
        rw [serializeEntries_kept t v ht hv] at hm'
        have := Except.ok.inj hm'
        subst this
        simp only [List.mem_singleton] at ham
        exact ⟨_, by simp, t, v, rfl, ht, hv, ham⟩
      · rw [serializeEntries_dropped e hone] at hm'
        have := Except.ok.inj hm'
        subst this
        simp at ham
    · obtain ⟨e', he', t, v, heq, ht, hv, hattr⟩ := serializeEntries_mem rest b hb' a hab
      exact ⟨e', List.mem_cons_of_mem _ he', t, v, heq, ht, hv, hattr⟩

theorem serializeAttributes_tidy (s : GoString) (attrs : List Attribute)
    (h : serializeAttributes s = .ok attrs) :
    ∀ a ∈ attrs, Tidy a.TraitType ∧ Tidy a.Value := by
  intro a ha
  rw [serializeAttributes_eq] at h
  obtain ⟨e, he, t, v, rfl, ht, hv, rfl⟩ := serializeEntries_mem _ attrs h a ha
  have hsemi : ';' ∉ t ++ ':' :: v := Split_mem_no_sep ';' _ _ he
  have hcomma : ',' ∉ t ++ ':' :: v := fun hc =>
    replaceFrom_no_comma s 0 (Split_mem_subset ';' _ _ he _ hc)
  have hclean_t : ∀ c ∈ t, c ≠ ':' ∧ c ≠ ';' ∧ c ≠ ',' := fun c hc =>
    ⟨fun e => ht (e ▸ hc), fun e => hsemi (List.mem_append_left _ (e ▸ hc)),
      fun e => hcomma (List.mem_append_left _ (e ▸ hc))⟩
  have hclean_v : ∀ c ∈ v, c ≠ ':' ∧ c ≠ ';' ∧ c ≠ ',' := fun c hc =>
    ⟨fun e => hv (e ▸ hc),
      fun e => hsemi (List.mem_append_right _ (List.mem_cons_of_mem _ (e ▸ hc))),
      fun e => hcomma (List.mem_append_right _ (List.mem_cons_of_mem _ (e ▸ hc)))⟩
  have hv_tidy := Tidy_TrimSpace v hclean_v
  have hnocomma : ',' ∉ TrimSpace v := fun hc => (hv_tidy.1 _ hc).2.2 rfl
  simp only
  rw [Trim_comma_eq_self _ hnocomma]
  exact ⟨Tidy_TrimSpace t hclean_t, hv_tidy⟩

theorem replacerLookup_separators_eq_none (c : Char) (tl : GoString)
    (hcomma : c ≠ ',') (h1 : ¬ (c = ';' ∧ tl.head? = some ' '))
    (h2 : ¬ (c = ' ' ∧ tl.head? = some ';')) :
    replacerLookup attributeSeparators (c :: tl) = none := by
  have hc : (',' == c) = false := by simpa using fun e => hcomma e.symm
  cases tl with
  | nil =>
    simp [replacerLookup, attributeSeparators, List.find?, List.isPrefixOf, hc]
  | cons d tl' =>
    simp only [List.head?_cons, Option.some.injEq] at h1 h2
    have p1 : ((';' == c) && (' ' == d)) = false := by
      by_cases e1 : c = ';'
      · have : d ≠ ' ' := fun e => h1 ⟨e1, e⟩
        simpa [e1] using fun e => this e.symm
      · simp [show (';' == c) = false by simpa using fun e => e1 e.symm]
    have p2 : ((' ' == c) && (';' == d)) = false := by
      by_cases e1 : c = ' '
      · have : d ≠ ';' := fun e => h2 ⟨e1, e⟩
        simpa [e1] using fun e => this e.symm
      · simp [show (' ' == c) = false by simpa using fun e => e1 e.symm]
    simp [replacerLookup, attributeSeparators, List.find?, List.isPrefixOf, hc, p1, p2]

theorem replaceFrom_keeps (rest : GoString) :
    ∀ x : GoString, (∀ c ∈ x, c ≠ ';' ∧ c ≠ ',') →
      (x.getLast? ≠ some ' ' ∨ rest.head? ≠ some ';') →
      replaceFrom attributeSeparators 0 (x ++ rest)
        = x ++ replaceFrom attributeSeparators 0 rest
  | [], _, _ => rfl
  | c :: x', hx, hend => by
    have hc := hx c (by simp)
    have hlook : replacerLookup attributeSeparators (c :: (x' ++ rest)) = none := by
      apply replacerLookup_separators_eq_none c _ hc.2
      · exact fun h => hc.1 h.1
      · rintro ⟨hsp, hnext⟩
        cases x' with
        | nil =>
          simp only [List.nil_append] at hnext
          rcases hend with h | h
          · exact h (by simp [hsp])
          · exact h hnext
        | cons d x'' =>
          simp only [List.cons_append, List.head?_cons, Option.some.injEq] at hnext
          exact (hx d (by simp)).1 hnext
    have hend' : x'.getLast? ≠ some ' ' ∨ rest.head? ≠ some ';' := by
      cases x' with
      | nil => exact Or.inl (by simp)
      | cons d x'' =>
        rcases hend with h | h
        · exact Or.inl (by rwa [List.getLast?_cons_cons] at h)
        · exact Or.inr h
    rw [List.cons_append, replaceFrom, hlook]
    simp only
    rw [replaceFrom_keeps rest x' (fun c' hc' => hx c' (List.mem_cons_of_mem _ hc')) hend',
      List.cons_append]

theorem replaceFrom_keeps_semicolon (rest : GoString) (h : rest.head? ≠ some ' ') :
    replaceFrom attributeSeparators 0 (';' :: rest)
      = ';' :: replaceFrom attributeSeparators 0 rest := by
  have hlook : replacerLookup attributeSeparators (';' :: rest) = none :=
    replacerLookup_separators_eq_none ';' rest (by decide) (fun hh => h hh.2)
      (fun hh => absurd hh.1 (by decide))
  rw [replaceFrom, hlook]

theorem formatAttribute_props (a : Attribute) (ht : Tidy a.TraitType) (hv : Tidy a.Value) :
    (∀ c ∈ formatAttribute a, c ≠ ';' ∧ c ≠ ',') ∧
      (formatAttribute a).getLast? ≠ some ' ' ∧ (formatAttribute a).head? ≠ some ' ' := by
  unfold formatAttribute
  refine ⟨?_, ?_, ?_⟩
  · intro c hc
    simp only [List.mem_append, List.mem_cons] at hc
    rcases hc with hc | rfl | hc
    · exact ⟨(ht.1 c hc).2.1, (ht.1 c hc).2.2⟩
    · exact ⟨by decide, by decide⟩
    · exact ⟨(hv.1 c hc).2.1, (hv.1 c hc).2.2⟩
  · have hlast := Tidy_getLast_ne_space _ hv
    cases hval : a.Value with
    | nil => simp
    | cons d v' =>
      rw [hval] at hlast
      rw [List.getLast?_append_of_ne_nil _ (by simp), List.getLast?_cons_cons]
      exact hlast
  · have hhead := Tidy_head_ne_space _ ht
    cases htr : a.TraitType with
    | nil => simp
    | cons d t' =>
      rw [htr] at hhead
      simpa using hhead

theorem formatAttributes_head (attrs : List Attribute)
    (h : ∀ a ∈ attrs, Tidy a.TraitType ∧ Tidy a.Value) :
    (formatAttributes attrs).head? ≠ some ' ' := by
  match attrs, h with
  | [], _ => simp [formatAttributes]
  | [a], h =>
    exact (formatAttribute_props a (h a (by simp)).1 (h a (by simp)).2).2.2
  | a :: b :: rest, h =>
    have hp := formatAttribute_props a (h a (by simp)).1 (h a (by simp)).2
    have hne : formatAttribute a ≠ [] := by simp [formatAttribute]
    rw [formatAttributes, List.head?_append_of_ne_nil _ hne]
    exact hp.2.2

theorem replaceFrom_formatAttributes :
    ∀ attrs : List Attribute, (∀ a ∈ attrs, Tidy a.TraitType ∧ Tidy a.Value) →
      replaceFrom attributeSeparators 0 (formatAttributes attrs) = formatAttributes attrs
  | [], _ => rfl
  | [a], h => by
    have hp := formatAttribute_props a (h a (by simp)).1 (h a (by simp)).2
    have := replaceFrom_keeps [] (formatAttribute a) hp.1 (Or.inl hp.2.1)
    simpa [formatAttributes, replaceFrom] using this
  | a :: b :: rest, h => by
    have hp := formatAttribute_props a (h a (by simp)).1 (h a (by simp)).2
    have htail : ∀ a' ∈ b :: rest, Tidy a'.TraitType ∧ Tidy a'.Value :=
      fun a' ha' => h a' (List.mem_cons_of_mem _ ha')
    rw [formatAttributes,
      replaceFrom_keeps _ (formatAttribute a) hp.1 (Or.inl hp.2.1),
      replaceFrom_keeps_semicolon _ (formatAttributes_head (b :: rest) htail),
      replaceFrom_formatAttributes (b :: rest) htail]

theorem Split_formatAttributes :
    ∀ (a : Attribute) (rest : List Attribute),
      (∀ a' ∈ a :: rest, Tidy a'.TraitType ∧ Tidy a'.Value) →
      Split (formatAttributes (a :: rest)) ';' = (a :: rest).map formatAttribute
  | a, [], h => by
    have hp := formatAttribute_props a (h a (by simp)).1 (h a (by simp)).2
    rw [formatAttributes, Split_of_not_mem ';' _ (fun hm => (hp.1 _ hm).1 rfl)]
    rfl
  | a, b :: rest, h => by
    have hp := formatAttribute_props a (h a (by simp)).1 (h a (by simp)).2
    rw [formatAttributes, Split_append_sep ';' _ _ (fun hm => (hp.1 _ hm).1 rfl),
      Split_formatAttributes b rest (fun a' ha' => h a' (List.mem_cons_of_mem _ ha'))]
    rfl

theorem serializeEntries_formatted :
    ∀ attrs : List Attribute, (∀ a ∈ attrs, Tidy a.TraitType ∧ Tidy a.Value) →
      serializeEntries (attrs.map formatAttribute) [] = .ok attrs
  | [], _ => rfl
  | a :: rest, h => by
    obtain ⟨ht, hv⟩ := h a (by simp)
    have hkept : serializeEntries [formatAttribute a] [] = .ok [a] := by
      unfold formatAttribute
      rw [serializeEntries_kept _ _ (fun hm => (ht.1 _ hm).1 rfl) (fun hm => (hv.1 _ hm).1 rfl),
        Tidy_TrimSpace_eq _ ht, Tidy_TrimSpace_eq _ hv,
        Trim_comma_eq_self _ (fun hm => (hv.1 _ hm).2.2 rfl)]
    have hrest := serializeEntries_formatted rest
      (fun a' ha' => h a' (List.mem_cons_of_mem _ ha'))
    have := serializeEntries_append [formatAttribute a] (rest.map formatAttribute) [a] rest
      hkept hrest []
    simpa using this

theorem serializeAttributes_formatted (attrs : List Attribute)
    (h : ∀ a ∈ attrs, Tidy a.TraitType ∧ Tidy a.Value) :
    serializeAttributes (formatAttributes attrs) = .ok attrs := by
  cases attrs with
  | nil => rfl
  | cons a rest =>
    rw [serializeAttributes_eq, replaceFrom_formatAttributes _ h, Split_formatAttributes a rest h,
      serializeEntries_formatted _ h]

theorem recognisedKeys_lower_case (ct : CaseTables) :
    ∀ key ∈ recognisedKeys, ToLower ct key = key := by
  intro key hkey
  simp only [recognisedKeys, List.mem_cons, List.mem_singleton, List.not_mem_nil,
    or_false] at hkey
  rcases hkey with rfl | rfl | rfl | rfl | rfl | rfl <;>
    simp [ToLower, unicodeToLower]

/-! ## The claims -/

/-- C1: for a data row whose name cell is not empty, the row written is the
input row with one cell appended, the hash `serializeAndHash` returns for the
object built in this pass, and that hash is 64 characters long, each of them
one of `0123456789ABCDEF`.  The pass completes whenever the record has a cell
at the positions of team name, gender, description and (under a header with
an attributes column) attributes. -/
theorem process_named_row_gains_hash (ct : CaseTables) (header : List GoString) (cols : Columns)
    (numLines : Nat) (st : LoopState) (record : List GoString) (nameCell : GoString)
    (hname : index record cols.nftNameIndex = .ok nameCell) (hne : nameCell ≠ []) :
    (∀ res, processRecord ct header cols numLines st record = .ok res →
      ∃ obj hash, res.object = some obj ∧ hash = (serializeAndHash ct st.hasher obj).1 ∧
        res.written = record ++ [hash] ∧ res.written.length = record.length + 1 ∧
        res.written.take record.length = record ∧
        hash.length = 64 ∧ ∀ c ∈ hash, c ∈ "0123456789ABCDEF".toList) ∧
    (∀ tn genderCell descriptionCell,
      index record cols.nftTeamNameIndex = .ok tn →
      index record cols.nftGenderIndex = .ok genderCell →
      index record cols.nftDescriptionIndex = .ok descriptionCell →
      (cols.nftAttributeIndex > -1 →
        ∃ cell, index record (getIndex ct header "attributes".toList) = .ok cell) →
      ∃ res, processRecord ct header cols numLines st record = .ok res) := by
  constructor
  · intro res hres
    obtain ⟨tn, g, d, attrs, -, -, -, -, rfl⟩ :=
      processRecord_build ct header cols numLines st record res nameCell hname hne hres
    exact ⟨_, _, rfl, rfl, rfl, by simp, by simp, serializeAndHash_length _ _ _,
      serializeAndHash_upperHex _ _ _⟩
  · intro tn g d hteam hgender hdesc hattr
    exact processRecord_completes ct header cols numLines st record tn nameCell g d hteam hname
      hne hgender hdesc hattr

theorem process_named_row_gains_hash_witness :
    ∃ res, processRecord asciiCase sampleHeaderHash (resolveColumns asciiCase sampleHeaderHash) 4
        initialState sampleRowBevel = .ok res ∧
      ∃ obj hash, res.object = some obj ∧
        hash = (serializeAndHash asciiCase initialState.hasher obj).1 ∧
        res.written = sampleRowBevel ++ [hash] ∧
        res.written.length = sampleRowBevel.length + 1 ∧
        res.written.take sampleRowBevel.length = sampleRowBevel ∧
        hash.length = 64 ∧ ∀ c ∈ hash, c ∈ "0123456789ABCDEF".toList := by
  obtain ⟨hform, hcompletes⟩ := process_named_row_gains_hash asciiCase sampleHeaderHash
    (resolveColumns asciiCase sampleHeaderHash) 4 initialState sampleRowBevel
    "Adewale".toList rfl (by decide)
  obtain ⟨res, hres⟩ := hcompletes "Bevel".toList " Male".toList
    "Adewale likes to gossip ".toList rfl rfl rfl (fun _ => ⟨_, rfl⟩)
  exact ⟨res, hres, hform res hres⟩

/-- C2: for a data row whose name cell is empty, the row written is the input
row itself (no cell appended, the cells as they were), no object is built and
the hasher is not used.  The pass completes whenever the record has a cell at
the positions of team name and series number. -/
theorem process_unnamed_row_unchanged (ct : CaseTables) (header : List GoString) (cols : Columns)
    (numLines : Nat) (st : LoopState) (record : List GoString)
    (hname : index record cols.nftNameIndex = .ok []) :
    (∀ res, processRecord ct header cols numLines st record = .ok res →
      res.written = record ∧ res.written.length = record.length ∧ res.object = none ∧
        res.state.hasher = st.hasher) ∧
    (∀ tn seriesCell,
      index record cols.nftTeamNameIndex = .ok tn →
      index record cols.nftSeriesNumberIndex = .ok seriesCell →
      ∃ res, processRecord ct header cols numLines st record = .ok res) := by
  constructor
  · intro res hres
    obtain ⟨tn, sn, -, -, rfl⟩ :=
      processRecord_skip ct header cols numLines st record res hname hres
    exact ⟨rfl, rfl, rfl, rfl⟩
  · intro tn sn hteam hseries
    exact processRecord_skip_completes ct header cols numLines st record tn sn hteam hname
      hseries

theorem process_unnamed_row_unchanged_witness :
    ∃ res, processRecord asciiCase sampleHeaderHash (resolveColumns asciiCase sampleHeaderHash) 4
        initialState sampleRowBlank = .ok res ∧
      res.written = sampleRowBlank ∧ res.written.length = sampleRowBlank.length ∧
      res.object = none ∧ res.state.hasher = initialState.hasher := by
  obtain ⟨hform, hcompletes⟩ := process_unnamed_row_unchanged asciiCase sampleHeaderHash
    (resolveColumns asciiCase sampleHeaderHash) 4 initialState sampleRowBlank rfl
  obtain ⟨res, hres⟩ := hcompletes [] [] rfl rfl
  exact ⟨res, hres, hform res hres⟩

/-- C3 (the code departs from the claim): on a header without the column of
team names `getIndex` returns `-1`, and `process` then stops at the first data
row with the panic `index out of range [-1]` instead of reading the missing
cell as empty: so for the sample file, and so for every file with a data row
whose header has no such column. -/
theorem process_panics_on_missing_column :
    (getIndex asciiCase (headerWithoutTeam ++ ["Hash".toList]) "team names".toList = -1 ∧
      run asciiCase sampleReader [headerWithoutTeam, rowWithoutTeam]
        = .error (.indexOutOfRange (-1) 5)) ∧
    (∀ (ct : CaseTables) (hasher : digest) (r : List (List Nat × Option ReadError))
        (header record : List GoString) (rest : List (List GoString)),
      (countLines r).2 = none →
      getIndex ct (header ++ ["Hash".toList]) "team names".toList = -1 →
      process ct hasher r (header :: record :: rest)
        = .error (.indexOutOfRange (-1) record.length)) := by
  refine ⟨⟨by decide, rfl⟩, ?_⟩
  intro ct hasher r header record rest hcount hteam
  have hidx : index record (resolveColumns ct (header ++ ["Hash".toList])).nftTeamNameIndex
      = .error (.indexOutOfRange (-1) record.length) := by
    have : (resolveColumns ct (header ++ ["Hash".toList])).nftTeamNameIndex = -1 := hteam
    rw [this]
    rfl
  have hrec : ∀ n st, processRecord ct (header ++ ["Hash".toList])
      (resolveColumns ct (header ++ ["Hash".toList])) n st record
        = .error (.indexOutOfRange (-1) record.length) := by
    intro n st
    unfold processRecord
    rw [hidx]
    rfl
  have hloop : ∀ n st, processRecords ct (header ++ ["Hash".toList])
      (resolveColumns ct (header ++ ["Hash".toList])) n st (record :: rest)
        = .error (.indexOutOfRange (-1) record.length) := by
    intro n st
    unfold processRecords
    rw [hrec]
    rfl
  unfold process
  rcases hc : countLines r with ⟨n, _ | e⟩
  · simp only [hloop]
  · rw [hc] at hcount
    simp at hcount

/-- C4: from a fresh hasher, every call of `serializeAndHash` in a sequence of
calls returns the upper-case hexadecimal SHA-256 digest of the JSON text of its
own object and leaves the hasher in its initial state; so an object hashed
after any earlier objects gets the hash it gets alone, and in a run of
`process` every hash written is the digest of the object of its row. -/
theorem hash_depends_on_object_alone (ct : CaseTables) :
    (∀ entries : List chipJson,
      hashInTurn ct digest.New entries = entries.map (fun e => (hashAlone ct e, digest.New))) ∧
    (∀ (earlier : List chipJson) (entry : chipJson),
      (hashInTurn ct digest.New (earlier ++ [entry])).getLast?
        = some (hashAlone ct entry, digest.New)) ∧
    (∀ (r : List (List Nat × Option ReadError)) (records : List (List GoString))
        (res : ProcessResult), run ct r records = .ok res →
      ∀ row ∈ res.rows, row.state.hasher = digest.New ∧
        ∀ obj, row.object = some obj → row.written.getLast? = some (hashAlone ct obj)) := by
  refine ⟨hashInTurn_fresh ct, ?_, ?_⟩
  · intro earlier entry
    rw [hashInTurn_fresh]
    simp
  · intro r records res hrun
    obtain ⟨header, rest, -, -, -, hrows⟩ := process_ok ct digest.New r records res hrun
    exact processRecords_hasher_fresh ct _ _ _ rest _ res.rows rfl hrows

theorem hash_depends_on_object_alone_witness :
    ∃ res, run asciiCase sampleReader sampleRecords = .ok res ∧
      ∀ row ∈ res.rows, row.state.hasher = digest.New ∧
        ∀ obj, row.object = some obj → row.written.getLast? = some (hashAlone asciiCase obj) := by
  obtain ⟨res, hres⟩ := exists_ok_of_toBool (run asciiCase sampleReader sampleRecords)
    (by decide)
  exact ⟨res, hres, (hash_depends_on_object_alone asciiCase).2.2 sampleReader sampleRecords res
    hres⟩

/-- C5: for a row with a name under a header with an attributes column, the
attributes of the object are the gender attribute (trait `gender`, value the
trimmed gender cell) followed by what `serializeAttributes` returns for the
attributes cell; and `serializeAttributes` of
`Teeth Color: Brown, Eye Color: Blue` is the two attributes of that text. -/
theorem object_attributes_gender_then_parsed (ct : CaseTables) (header : List GoString)
    (numLines : Nat) (st : LoopState) (record : List GoString) (res : RowResult)
    (nameCell : GoString)
    (hcol : getIndex ct header "attributes".toList > -1)
    (hname : index record (getIndex ct header "name".toList) = .ok nameCell)
    (hne : nameCell ≠ [])
    (hres : processRecord ct header (resolveColumns ct header) numLines st record = .ok res) :
    (∃ obj genderCell attributesCell parsed,
      res.object = some obj ∧
      index record (getIndex ct header "gender".toList) = .ok genderCell ∧
      index record (getIndex ct header "attributes".toList) = .ok attributesCell ∧
      serializeAttributes attributesCell = .ok parsed ∧
      obj.Attributes
        = { TraitType := "gender".toList, Value := TrimSpace genderCell } :: parsed) ∧
    serializeAttributes "Teeth Color: Brown, Eye Color: Blue".toList
      = .ok [{ TraitType := "Teeth Color".toList, Value := "Brown".toList },
             { TraitType := "Eye Color".toList, Value := "Blue".toList }] := by
  refine ⟨?_, rfl⟩
  obtain ⟨tn, g, d, attrs, -, hg, -, hattrs, rfl⟩ :=
    processRecord_build ct header (resolveColumns ct header) numLines st record res nameCell
      hname hne hres
  rcases hattrs with ⟨-, cell, parsed, hcell, hparsed, rfl⟩ | ⟨hno, -⟩
  · exact ⟨_, g, cell, parsed, rfl, hg, hcell, hparsed, rfl⟩
  · exact absurd hcol hno

theorem object_attributes_gender_then_parsed_witness :
    ∃ res, processRecord asciiCase sampleHeaderHash (resolveColumns asciiCase sampleHeaderHash) 4
        initialState sampleRowBevel = .ok res ∧
      ∃ obj, res.object = some obj ∧
        obj.Attributes
          = [{ TraitType := "gender".toList, Value := "Male".toList },
             { TraitType := "Teeth Color".toList, Value := "Brown".toList },
             { TraitType := "Eye Color".toList, Value := "Blue".toList }] := by
  obtain ⟨res, hres⟩ := exists_ok_of_toBool
    (processRecord asciiCase sampleHeaderHash (resolveColumns asciiCase sampleHeaderHash) 4
      initialState sampleRowBevel) (by decide)
  obtain ⟨⟨obj, g, cell, parsed, hobj, hg, hcell, hparsed, hattrs⟩, hex⟩ :=
    object_attributes_gender_then_parsed asciiCase sampleHeaderHash 4 initialState
      sampleRowBevel res "Adewale".toList (by decide) rfl (by decide) hres
  have hg' : g = " Male".toList := by
    have : index sampleRowBevel (getIndex asciiCase sampleHeaderHash "gender".toList)
        = .ok " Male".toList := rfl
    rw [this] at hg
    exact (Except.ok.inj hg).symm
  have hcell' : cell = "Teeth Color: Brown, Eye Color: Blue".toList := by
    have : index sampleRowBevel (getIndex asciiCase sampleHeaderHash "attributes".toList)
        = .ok "Teeth Color: Brown, Eye Color: Blue".toList := rfl
    rw [this] at hcell
    exact (Except.ok.inj hcell).symm
  subst hg' hcell'
  rw [hex] at hparsed
  have hp := Except.ok.inj hparsed
  subst hp
  exact ⟨res, hres, obj, hobj, by rw [hattrs]; decide⟩

/-- C6 (as stated, fails): the entry `link: http://x` contains a `:` and yet
contributes no attribute, because it has a second `:`. -/
theorem serializeAttributes_drops_second_colon :
    Split (replaceFrom attributeSeparators 0 "link: http://x".toList) ';'
        = ["link: http://x".toList] ∧
      ':' ∈ "link: http://x".toList ∧
      serializeAttributes "link: http://x".toList = .ok [] ∧
      ¬ ∃ attrs, serializeAttributes "link: http://x".toList = .ok attrs ∧
          { TraitType := "link".toList, Value := "http://x".toList } ∈ attrs := by
  refine ⟨by decide, by decide, rfl, ?_⟩
  rintro ⟨attrs, h, hmem⟩
  have h0 : serializeAttributes "link: http://x".toList = .ok [] := rfl
  rw [h0] at h
  have := Except.ok.inj h
  subst this
  simp at hmem

/-- C6 (amended): `serializeAttributes` splits an entry at every `:` and keeps
it only when that gives two parts.  For every entry `e` of the normalised text,
the result is what the entries before `e` give, then the contribution of `e`,
then what the entries after `e` give; `e` contributes one attribute, with the
trimmed text before the `:` as trait and the trimmed text after it as value,
when it contains exactly one `:`, and nothing otherwise. -/
theorem serializeAttributes_entry_with_one_colon (s : GoString) (pre post : List GoString)
    (e : GoString)
    (hsplit : Split (replaceFrom attributeSeparators 0 s) ';' = pre ++ e :: post) :
    ∃ a b, serializeEntries pre [] = .ok a ∧ serializeEntries post [] = .ok b ∧
      (e.count ':' = 1 → ∃ t v, e = t ++ ':' :: v ∧ ':' ∉ t ∧ ':' ∉ v ∧
        serializeAttributes s
          = .ok (a ++ [{ TraitType := TrimSpace t, Value := TrimSpace v }] ++ b)) ∧
      (e.count ':' ≠ 1 → serializeAttributes s = .ok (a ++ b)) := by
  obtain ⟨a, m, b, ha, hm, hb, -, hs⟩ := serializeAttributes_around s pre post e hsplit
  refine ⟨a, b, ha, hb, ?_, ?_⟩
  · intro hone
    obtain ⟨t, v, rfl, ht, hv, -⟩ := Split_one_sep ':' e hone
    refine ⟨t, v, rfl, ht, hv, ?_⟩
    have hcomma : ',' ∉ TrimSpace v := by
      intro hc
      have h1 : ',' ∈ v := TrimFunc_subset _ v _ hc
      have h2 : ',' ∈ t ++ ':' :: v := by simp [h1]
      have h3 : t ++ ':' :: v ∈ Split (replaceFrom attributeSeparators 0 s) ';' := by
        rw [hsplit]; simp
      exact replaceFrom_no_comma s 0 (Split_mem_subset ';' _ _ h3 _ h2)
    rw [serializeEntries_kept t v ht hv, Trim_comma_eq_self _ hcomma] at hm
    have := Except.ok.inj hm
    subst this
    exact hs
  · intro hne
    rw [serializeEntries_dropped e hne] at hm
    have := Except.ok.inj hm
    subst this
    simpa using hs

theorem serializeAttributes_entry_with_one_colon_witness :
    ∃ a b, serializeEntries ["hair: bald".toList] [] = .ok a ∧
      serializeEntries [" eyes : blue".toList] [] = .ok b ∧
      ("link: http://x".toList.count ':' = 1 → ∃ t v,
        "link: http://x".toList = t ++ ':' :: v ∧ ':' ∉ t ∧ ':' ∉ v ∧
        serializeAttributes "hair: bald;link: http://x, eyes : blue".toList
          = .ok (a ++ [{ TraitType := TrimSpace t, Value := TrimSpace v }] ++ b)) ∧
      ("link: http://x".toList.count ':' ≠ 1 →
        serializeAttributes "hair: bald;link: http://x, eyes : blue".toList = .ok (a ++ b)) :=
  serializeAttributes_entry_with_one_colon "hair: bald;link: http://x, eyes : blue".toList
    ["hair: bald".toList] [" eyes : blue".toList] "link: http://x".toList (by decide)

/-- C7: `serializeAttributes` returns a sequence for every input and never
fails; the empty string gives the empty sequence; an entry without `:` gives
no attribute, and the result is then what the entries before it give followed
by what the entries after it give, the same as without that entry. -/
theorem serializeAttributes_total :
    (∀ s : GoString, ∃ attrs, serializeAttributes s = .ok attrs) ∧
    serializeAttributes [] = .ok [] ∧
    (∀ (s : GoString) (pre post : List GoString) (e : GoString),
      Split (replaceFrom attributeSeparators 0 s) ';' = pre ++ e :: post → ':' ∉ e →
      ∃ a b, serializeEntries pre [] = .ok a ∧ serializeEntries post [] = .ok b ∧
        serializeEntries [e] [] = .ok [] ∧
        serializeEntries (pre ++ post) [] = .ok (a ++ b) ∧
        serializeAttributes s = .ok (a ++ b)) := by
  refine ⟨?_, rfl, ?_⟩
  · intro s
    obtain ⟨out, hout⟩ := serializeEntries_total (Split (replaceFrom attributeSeparators 0 s) ';')
    exact ⟨out, by rw [serializeAttributes_eq]; simpa using hout []⟩
  · intro s pre post e hsplit hno
    obtain ⟨a, m, b, ha, hm, hb, hab, hs⟩ := serializeAttributes_around s pre post e hsplit
    have hdrop := serializeEntries_dropped e (by
      rw [List.count_eq_zero.mpr hno]; decide)
    rw [hdrop] at hm
    have := Except.ok.inj hm
    subst this
    exact ⟨a, b, ha, hb, hdrop, hab, by simpa using hs⟩

theorem serializeAttributes_total_witness :
    serializeAttributes "hair: bald; no colon here ;eyes: blue".toList
      = .ok [{ TraitType := "hair".toList, Value := "bald".toList },
             { TraitType := "eyes".toList, Value := "blue".toList }] := by
  obtain ⟨a, b, ha, hb, -, -, hs⟩ := serializeAttributes_total.2.2
    "hair: bald; no colon here ;eyes: blue".toList ["hair: bald".toList] ["eyes: blue".toList]
    "no colon here".toList (by decide) (by decide)
  have ha' : serializeEntries ["hair: bald".toList] []
      = .ok [{ TraitType := "hair".toList, Value := "bald".toList }] := rfl
  have hb' : serializeEntries ["eyes: blue".toList] []
      = .ok [{ TraitType := "eyes".toList, Value := "blue".toList }] := rfl
  rw [ha'] at ha
  rw [hb'] at hb
  have h1 := Except.ok.inj ha
  have h2 := Except.ok.inj hb
  subst h1 h2
  exact hs

/-- C8: the team name is sticky.  In a run of `process` that completes, the
object of every row with a name has as minting tool the team-name cell of the
latest row at or before it whose team-name cell is not empty, and the empty
string when there is no such row. -/
theorem minting_tool_is_latest_team_name (ct : CaseTables) (hasher : digest)
    (r : List (List Nat × Option ReadError)) (header : List GoString)
    (rows : List (List GoString)) (res : ProcessResult)
    (hrun : process ct hasher r (header :: rows) = .ok res)
    (i : Nat) (record : List GoString) (nameCell : GoString)
    (hi : rows[i]? = some record)
    (hname : index record (getIndex ct (header ++ ["Hash".toList]) "name".toList) = .ok nameCell)
    (hne : nameCell ≠ []) :
    ∃ row obj, res.rows[i]? = some row ∧ row.object = some obj ∧
      obj.MintingTool =
        teamNameInEffect (getIndex ct (header ++ ["Hash".toList]) "team names".toList)
          (rows.take (i + 1)) := by
  obtain ⟨header', rest, hrec, -, -, hrows⟩ := process_ok ct hasher r _ res hrun
  obtain ⟨rfl, rfl⟩ := List.cons.inj hrec
  exact processRecords_minting ct _ _ _ rows _ res.rows hrows i record nameCell hi hname hne

theorem minting_tool_is_latest_team_name_witness :
    ∃ res, run asciiCase sampleReader sampleRecords = .ok res ∧
      ∃ row obj, res.rows[2]? = some row ∧ row.object = some obj ∧
        obj.MintingTool = "Bevel".toList := by
  obtain ⟨res, hres⟩ := exists_ok_of_toBool (run asciiCase sampleReader sampleRecords)
    (by decide)
  obtain ⟨row, obj, hrow, hobj, hmint⟩ :=
    minting_tool_is_latest_team_name asciiCase digest.New sampleReader sampleHeader
      [sampleRowBevel, sampleRowBlank, sampleRowNoTeam] res hres 2 sampleRowNoTeam
      "Alli".toList rfl rfl (by decide)
  exact ⟨res, hres, row, obj, hrow, hobj, by rw [hmint]; decide⟩

/-- C9: in a run of `process` that completes on a file whose data rows all
have a name, there is one object per data row, the object of the data row at
position `i` (counted from 0) has series number `i + 1`, and every object has
as series total the one number `countLines` returned. -/
theorem series_numbers_count_rows (ct : CaseTables) (hasher : digest)
    (r : List (List Nat × Option ReadError)) (header : List GoString)
    (rows : List (List GoString)) (res : ProcessResult)
    (hrun : process ct hasher r (header :: rows) = .ok res)
    (hall : ∀ record ∈ rows, ∃ nameCell,
      index record (getIndex ct (header ++ ["Hash".toList]) "name".toList) = .ok nameCell ∧
      nameCell ≠ []) :
    res.rows.length = rows.length ∧ (countLines r).2 = none ∧
      ∀ i, i < rows.length → ∃ row obj, res.rows[i]? = some row ∧ row.object = some obj ∧
        obj.SeriesNumber = i + 1 ∧ obj.SeriesTotal = (countLines r).1 := by
  obtain ⟨header', rest, hrec, hcount, -, hrows⟩ := process_ok ct hasher r _ res hrun
  obtain ⟨rfl, rfl⟩ := List.cons.inj hrec
  obtain ⟨hlen, hser⟩ := processRecords_series ct _ _ _ rows _ res.rows hrows hall
  refine ⟨hlen, hcount, fun i hi => ?_⟩
  obtain ⟨row, obj, hrow, hobj, hnum, htot⟩ := hser i hi
  exact ⟨row, obj, hrow, hobj, by simpa [Nat.add_comm] using hnum, htot⟩

theorem series_numbers_count_rows_witness :
    ∃ res, run asciiCase sampleReader [sampleHeader, sampleRowBevel, sampleRowNoTeam] = .ok res ∧
      res.rows.length = 2 ∧
      ∀ i, i < 2 → ∃ row obj, res.rows[i]? = some row ∧ row.object = some obj ∧
        obj.SeriesNumber = i + 1 ∧ obj.SeriesTotal = 4 := by
  obtain ⟨res, hres⟩ := exists_ok_of_toBool
    (run asciiCase sampleReader [sampleHeader, sampleRowBevel, sampleRowNoTeam]) (by decide)
  obtain ⟨hlen, -, hser⟩ :=
    series_numbers_count_rows asciiCase digest.New sampleReader sampleHeader
      [sampleRowBevel, sampleRowNoTeam] res hres (by
        intro record hm
        simp only [List.mem_cons, List.mem_singleton, List.not_mem_nil, or_false] at hm
        rcases hm with rfl | rfl
        · exact ⟨"Adewale".toList, rfl, by decide⟩
        · exact ⟨"Alli".toList, rfl, by decide⟩)
  exact ⟨res, hres, hlen, hser⟩

/-- C10 (as stated, fails).  First, two rows that differ in the name cell only,
by a space at its end, are different rows with the same trimmed name: the same
object is built for both and both get the same hash.  Second, among the rows
that differ in the name cell only, with names `a`, `aa`, `aaa`, ..., there are
two with different objects and the same hash, since there are more such names
than hash values. -/
theorem hash_misses_changes :
    (sampleRowBevel ≠ sampleRowBevelSpaced ∧
      index sampleRowBevel (resolveColumns asciiCase sampleHeaderHash).nftNameIndex
        = .ok "Adewale".toList ∧
      index sampleRowBevelSpaced (resolveColumns asciiCase sampleHeaderHash).nftNameIndex
        = .ok "Adewale ".toList ∧
      ∃ r1 r2 obj hash,
        processRecord asciiCase sampleHeaderHash (resolveColumns asciiCase sampleHeaderHash) 4
          initialState sampleRowBevel = .ok r1 ∧
        processRecord asciiCase sampleHeaderHash (resolveColumns asciiCase sampleHeaderHash) 4
          initialState sampleRowBevelSpaced = .ok r2 ∧
        r1.object = some obj ∧ r2.object = some obj ∧
        r1.written = sampleRowBevel ++ [hash] ∧ r2.written = sampleRowBevelSpaced ++ [hash]) ∧
    (∃ j k r1 r2 obj1 obj2 hash, j ≠ k ∧
        processRecord asciiCase sampleHeaderHash (resolveColumns asciiCase sampleHeaderHash) 4
          initialState (sampleRowNamed j) = .ok r1 ∧
        processRecord asciiCase sampleHeaderHash (resolveColumns asciiCase sampleHeaderHash) 4
          initialState (sampleRowNamed k) = .ok r2 ∧
        r1.object = some obj1 ∧ r2.object = some obj2 ∧ obj1 ≠ obj2 ∧
        r1.written = sampleRowNamed j ++ [hash] ∧ r2.written = sampleRowNamed k ++ [hash]) := by
  refine ⟨⟨by decide, rfl, rfl, _, _, _, _, rfl, rfl, rfl, rfl, rfl, rfl⟩, ?_⟩
  obtain ⟨j, k, hjk, hhash⟩ := hashAlone_collision asciiCase
    (fun k => builtObject "Bevel".toList (List.replicate (k + 1) 'a')
      "Adewale likes to gossip ".toList 1 4
      [genderAttribute " Male".toList,
       { TraitType := "Teeth Color".toList, Value := "Brown".toList },
       { TraitType := "Eye Color".toList, Value := "Blue".toList }])
  refine ⟨j, k, _, _, _, _, _, hjk, sampleRowNamed_run j, sampleRowNamed_run k, rfl, rfl, ?_,
    rfl, ?_⟩
  · intro heq
    have hn := congrArg chipJson.Name heq
    simp only [builtObject, TrimSpace_replicate_a] at hn
    have := congrArg List.length hn
    simp at this
    exact hjk this
  · exact congrArg (fun h => sampleRowNamed k ++ [h]) hhash.symm

/-- C10 (amended): for two rows with a name, the objects built are equal
exactly when the trimmed name cells, the trimmed description cells, the trimmed
gender cells, the attributes parsed from the attributes cells (under a header
with an attributes column), the team names in effect and the ordinals are
equal; so a change of a cell that survives the trimming or the parsing, and
any change of the team name in effect or of the ordinal, changes the object
that is serialized.  The row gets the hash of that object, and equal objects
hashed from equal hasher states get equal hashes; nothing is said of the
hashes of different objects. -/
theorem object_tracks_processed_cells (ct : CaseTables) (header : List GoString) (cols : Columns)
    (numLines : Nat) (st1 st2 : LoopState) (rec1 rec2 : List GoString) (r1 r2 : RowResult)
    (name1 name2 : GoString)
    (hname1 : index rec1 cols.nftNameIndex = .ok name1) (hne1 : name1 ≠ [])
    (hname2 : index rec2 cols.nftNameIndex = .ok name2) (hne2 : name2 ≠ [])
    (h1 : processRecord ct header cols numLines st1 rec1 = .ok r1)
    (h2 : processRecord ct header cols numLines st2 rec2 = .ok r2) :
    ∃ o1 o2, r1.object = some o1 ∧ r2.object = some o2 ∧
      (o1 = o2 ↔
        TrimSpace name1 = TrimSpace name2 ∧
        TrimSpace (cellAt rec1 cols.nftDescriptionIndex)
          = TrimSpace (cellAt rec2 cols.nftDescriptionIndex) ∧
        TrimSpace (cellAt rec1 cols.nftGenderIndex)
          = TrimSpace (cellAt rec2 cols.nftGenderIndex) ∧
        (cols.nftAttributeIndex > -1 →
          serializeAttributes (cellAt rec1 (getIndex ct header "attributes".toList))
            = serializeAttributes (cellAt rec2 (getIndex ct header "attributes".toList))) ∧
        r1.state.teamName = r2.state.teamName ∧
        st1.line = st2.line) ∧
      r1.written = rec1 ++ [(serializeAndHash ct st1.hasher o1).1] ∧
      r2.written = rec2 ++ [(serializeAndHash ct st2.hasher o2).1] ∧
      (o1 = o2 → st1.hasher = st2.hasher → r1.written.getLast? = r2.written.getLast?) := by
  obtain ⟨a1, hattrs1, hobj1, hw1, hg1⟩ :=
    processRecord_object ct header cols numLines st1 rec1 r1 name1 hname1 hne1 h1
  obtain ⟨a2, hattrs2, hobj2, hw2, hg2⟩ :=
    processRecord_object ct header cols numLines st2 rec2 r2 name2 hname2 hne2 h2
  refine ⟨_, _, hobj1, hobj2, ?_, hw1, hw2, ?_⟩
  · rcases hattrs1 with ⟨hcol, p1, hp1, rfl⟩ | ⟨hno, rfl⟩
    · rcases hattrs2 with ⟨-, p2, hp2, rfl⟩ | ⟨hno, -⟩
      · simp only [builtObject, genderAttribute, chipJson.mk.injEq, List.cons.injEq,
          Attribute.mk.injEq, true_and, and_true, hp1, hp2, Except.ok.injEq, hcol, true_implies]
        tauto
      · exact absurd hcol hno
    · rcases hattrs2 with ⟨hcol, -⟩ | ⟨-, rfl⟩
      · exact absurd hcol hno
      · simp only [builtObject, genderAttribute, chipJson.mk.injEq, List.cons.injEq,
          Attribute.mk.injEq, true_and, and_true, hno, false_implies]
        tauto
  · intro hobj hh
    rw [hg1, hg2, hobj, hh]

theorem object_tracks_processed_cells_witness :
    ∃ r1 r2 o1 o2,
      processRecord asciiCase sampleHeaderHash (resolveColumns asciiCase sampleHeaderHash) 4
        initialState sampleRowBevel = .ok r1 ∧
      processRecord asciiCase sampleHeaderHash (resolveColumns asciiCase sampleHeaderHash) 4
        initialState sampleRowNoTeam = .ok r2 ∧
      r1.object = some o1 ∧ r2.object = some o2 ∧ o1 ≠ o2 := by
  obtain ⟨r1, h1⟩ := exists_ok_of_toBool
    (processRecord asciiCase sampleHeaderHash (resolveColumns asciiCase sampleHeaderHash) 4
      initialState sampleRowBevel) (by decide)
  obtain ⟨r2, h2⟩ := exists_ok_of_toBool
    (processRecord asciiCase sampleHeaderHash (resolveColumns asciiCase sampleHeaderHash) 4
      initialState sampleRowNoTeam) (by decide)
  obtain ⟨o1, o2, ho1, ho2, hiff, -, -, -⟩ :=
    object_tracks_processed_cells asciiCase sampleHeaderHash
      (resolveColumns asciiCase sampleHeaderHash) 4 initialState initialState
      sampleRowBevel sampleRowNoTeam r1 r2 "Adewale".toList "Alli".toList
      rfl (by decide) rfl (by decide) h1 h2
  have hne : o1 ≠ o2 := fun heq => absurd (hiff.mp heq).1 (by decide)
  exact ⟨r1, r2, o1, o2, h1, h2, ho1, ho2, hne⟩

/-- A remark on keys that are no field names: `getIndex` lower-cases the header
element and not the key, so a key with a capital letter, which `process` never
passes, is not found. -/
theorem getIndex_misses_capital_key :
    sameIgnoringCase asciiCase "Name".toList "Name".toList ∧
      getIndex asciiCase ["Name".toList] "Name".toList = -1 ∧
      getIndex asciiCase sampleHeader "Name".toList = -1 := by
  refine ⟨rfl, by decide, by decide⟩

/-- C12: for every header and every field name, `getIndex` matches
case-insensitively: it returns the zero-based position of the first header
element equal to the key ignoring letter case, and `-1` exactly when no header
element equals the key ignoring letter case.  A field name is a key in lower
case, as the six field names are under every case table
(`recognisedKeys_lower_case`). -/
theorem getIndex_first_match_ignoring_case (ct : CaseTables) (header : List GoString)
    (key : GoString) (hkey : ToLower ct key = key) :
    (getIndex ct header key = -1 ↔ ∀ elem ∈ header, ¬ sameIgnoringCase ct elem key) ∧
    (∀ i : Nat, getIndex ct header key = (i : Int) ↔
      ∃ elem, header[i]? = some elem ∧ sameIgnoringCase ct elem key ∧
        ∀ (j : Nat) (e : GoString), j < i → header[j]? = some e →
          ¬ sameIgnoringCase ct e key) ∧
    (getIndex ct header key = -1 ∨
      (0 ≤ getIndex ct header key ∧ getIndex ct header key < (header.length : Int))) := by
  have hsame : ∀ e, sameIgnoringCase ct e key ↔ ToLower ct e = key := by
    intro e
    unfold sameIgnoringCase
    rw [hkey]
  simp only [hsame]
  unfold getIndex
  rcases getIndexFrom_cases ct key header 0 with ⟨hres, hno⟩ | ⟨i, elem, hres, hi, hm, hbefore⟩
  · refine ⟨⟨fun _ => hno, fun _ => hres⟩, ?_, Or.inl hres⟩
    intro i
    constructor
    · intro h
      rw [hres] at h
      omega
    · rintro ⟨elem, hi, hm, -⟩
      exact absurd hm (hno elem (List.getElem?_mem hi))
  · simp only [Nat.zero_add] at hres
    have hlt : i < header.length := by
      by_contra hge
      rw [List.getElem?_eq_none (by omega)] at hi
      simp at hi
    refine ⟨⟨fun h => ?_, fun h => ?_⟩, ?_, Or.inr ⟨by rw [hres]; omega, by rw [hres]; omega⟩⟩
    · rw [hres] at h
      omega
    · exact absurd hm (h elem (List.getElem?_mem hi))
    · intro i'
      constructor
      · intro h
        rw [hres] at h
        have : i = i' := by omega
        subst this
        exact ⟨elem, hi, hm, hbefore⟩
      · rintro ⟨elem', hi', hm', hbefore'⟩
        rw [hres]
        have h1 : ¬ i < i' := fun hlt' => hbefore' i elem hlt' hi hm
        have h2 : ¬ i' < i := fun hlt' => hbefore i' elem' hlt' hi' hm'
        have : i = i' := by omega
        rw [this]

theorem getIndex_first_match_ignoring_case_witness :
    getIndex asciiCase sampleHeader "name".toList = 3 ∧
      getIndex asciiCase sampleHeader "price".toList = -1 := by
  obtain ⟨hnone, hpos, -⟩ := getIndex_first_match_ignoring_case asciiCase sampleHeader
    "name".toList (recognisedKeys_lower_case asciiCase "name".toList (by decide))
  obtain ⟨hnone', -, -⟩ := getIndex_first_match_ignoring_case asciiCase sampleHeader
    "price".toList (by decide)
  refine ⟨(hpos 3).mpr ⟨"Name".toList, rfl, by decide, ?_⟩, hnone'.mpr ?_⟩
  · intro j e hj hje
    have hj' : j = 0 ∨ j = 1 ∨ j = 2 := by omega
    rcases hj' with rfl | rfl | rfl <;>
      · simp only [sampleHeader, List.getElem?_cons_zero, List.getElem?_cons_succ,
          Option.some.injEq] at hje
        subst hje
        decide
  · intro elem hmem
    simp only [sampleHeader, List.mem_cons, List.mem_singleton, List.not_mem_nil,
      or_false] at hmem
    rcases hmem with rfl | rfl | rfl | rfl | rfl | rfl | rfl | rfl <;> decide

/-- C18: `countLines` returns the number of newline bytes of the whole stream,
however the stream is cut into reads: with the end of input reported together
with the last bytes or by a read of its own, and whatever the reader would
return after it.  The newlines of the header line and of blank lines count, a
last line without a newline does not.  A read that fails with another error
than the end of input makes it return `0` and that error. -/
theorem countLines_counts_newlines :
    (∀ (chunks : List (List Nat)) (last : List Nat) (rest : List (List Nat × Option ReadError)),
      countLines (chunks.map (fun c => (c, none)) ++ (last, some ReadError.EOF) :: rest)
        = ((chunks.flatten ++ last).count 0x0A, none)) ∧
    (∀ chunks : List (List Nat),
      countLines (chunks.map (fun c => (c, none))) = (chunks.flatten.count 0x0A, none)) ∧
    (∀ (chunks : List (List Nat)) (buf : List Nat) (msg : GoString)
        (rest : List (List Nat × Option ReadError)),
      countLines (chunks.map (fun c => (c, none)) ++ (buf, some (ReadError.other msg)) :: rest)
        = (0, some (ReadError.other msg))) ∧
    countLines [(utf8Bytes "Name\n\nAdewale\nAlli".toList, some ReadError.EOF)] = (3, none) ∧
    countLines [(utf8Bytes "Name\n".toList, none), (utf8Bytes "\nAdew".toList, none),
      (utf8Bytes "ale\nAlli".toList, none), ([], some ReadError.EOF)] = (3, none) := by
  refine ⟨?_, ?_, ?_, by decide, by decide⟩
  · intro chunks last rest
    unfold countLines
    rw [countLinesFrom_chunks]
    simp [countLinesFrom, List.count_append]
  · intro chunks
    have := countLinesFrom_chunks [] chunks 0
    simp only [List.append_nil] at this
    unfold countLines
    rw [this]
    simp [countLinesFrom]
  · intro chunks buf msg rest
    unfold countLines
    rw [countLinesFrom_chunks]
    simp [countLinesFrom]

/-- C11: under a header without an attributes column, the object of a row
with a name has the gender attribute as its only attribute, and the row gets
the hash of that object; the pass completes whenever the record has a cell at
the positions of team name, gender and description. -/
theorem object_without_attributes_column (ct : CaseTables) (header : List GoString)
    (numLines : Nat) (st : LoopState) (record : List GoString) (nameCell : GoString)
    (hcol : getIndex ct header "attributes".toList = -1)
    (hname : index record (getIndex ct header "name".toList) = .ok nameCell)
    (hne : nameCell ≠ []) :
    (∀ res, processRecord ct header (resolveColumns ct header) numLines st record = .ok res →
      ∃ obj genderCell hash, res.object = some obj ∧
        index record (getIndex ct header "gender".toList) = .ok genderCell ∧
        obj.Attributes = [{ TraitType := "gender".toList, Value := TrimSpace genderCell }] ∧
        hash = (serializeAndHash ct st.hasher obj).1 ∧ res.written = record ++ [hash]) ∧
    (∀ tn genderCell descriptionCell,
      index record (getIndex ct header "team names".toList) = .ok tn →
      index record (getIndex ct header "gender".toList) = .ok genderCell →
      index record (getIndex ct header "description".toList) = .ok descriptionCell →
      ∃ res, processRecord ct header (resolveColumns ct header) numLines st record = .ok res) := by
  have hno : ¬ (resolveColumns ct header).nftAttributeIndex > -1 := by
    show ¬ getIndex ct header "attributes".toList > -1
    rw [hcol]
    decide
  constructor
  · intro res hres
    obtain ⟨tn, g, d, attrs, -, hg, -, hattrs, rfl⟩ :=
      processRecord_build ct header (resolveColumns ct header) numLines st record res nameCell
        hname hne hres
    rcases hattrs with ⟨hcol', -⟩ | ⟨-, rfl⟩
    · exact absurd hcol' hno
    · exact ⟨_, g, _, rfl, hg, rfl, rfl, rfl⟩
  · intro tn g d hteam hgender hdesc
    exact processRecord_completes ct header (resolveColumns ct header) numLines st record tn
      nameCell g d hteam hname hne hgender hdesc (fun h => absurd h hno)

theorem object_without_attributes_column_witness :
    ∃ res, processRecord asciiCase headerWithoutAttributes
        (resolveColumns asciiCase headerWithoutAttributes) 4 initialState rowWithoutAttributes
          = .ok res ∧
      ∃ obj hash, res.object = some obj ∧
        obj.Attributes = [{ TraitType := "gender".toList, Value := "Male".toList }] ∧
        res.written = rowWithoutAttributes ++ [hash] := by
  obtain ⟨hform, hcompletes⟩ := object_without_attributes_column asciiCase
    headerWithoutAttributes 4 initialState rowWithoutAttributes "Adewale".toList
    (by decide) rfl (by decide)
  obtain ⟨res, hres⟩ := hcompletes "Bevel".toList "Male ".toList
    " Adewale likes to gossip".toList rfl rfl rfl
  obtain ⟨obj, g, hash, hobj, hg, hattrs, -, hw⟩ := hform res hres
  have hg' : g = "Male ".toList := by
    have : index rowWithoutAttributes (getIndex asciiCase headerWithoutAttributes
        "gender".toList) = .ok "Male ".toList := rfl
    rw [this] at hg
    exact (Except.ok.inj hg).symm
  subst hg'
  exact ⟨res, hres, obj, hash, hobj, by rw [hattrs]; decide, hw⟩

/-- C15: in a run of `process` that completes, the output is the input header
with the one cell `Hash` appended, followed by one row for every data row of
the input, in the same order; every output row is the input row itself or the
input row with one cell appended, so the cells of the input row are its
prefix. -/
theorem output_is_header_then_rows (ct : CaseTables) (hasher : digest)
    (r : List (List Nat × Option ReadError)) (records : List (List GoString))
    (res : ProcessResult) (hrun : process ct hasher r records = .ok res) :
    ∃ header rows, records = header :: rows ∧
      res.output.head? = some (header ++ ["Hash".toList]) ∧
      res.output.length = rows.length + 1 ∧
      ∀ (i : Nat) (record : List GoString), rows[i]? = some record →
        ∃ out, res.output[i + 1]? = some out ∧ record <+: out ∧
          (out = record ∨ ∃ hash, out = record ++ [hash]) := by
  obtain ⟨header, rows, hrec, -, hheader, hrows⟩ := process_ok ct hasher r records res hrun
  obtain ⟨hlen, hw⟩ := processRecords_written ct _ _ _ rows _ res.rows hrows
  refine ⟨header, rows, hrec, by simp [ProcessResult.output, hheader],
    by simp [ProcessResult.output, hlen], fun i record hi => ?_⟩
  obtain ⟨row, hrow, hcase⟩ := hw i record hi
  refine ⟨row.written, by simp [ProcessResult.output, hrow], ?_, hcase⟩
  rcases hcase with h | ⟨hash, h⟩
  · rw [h]
  · rw [h]
    exact List.prefix_append _ _

theorem output_is_header_then_rows_witness :
    ∃ res, run asciiCase sampleReader sampleRecords = .ok res ∧
      res.output.head? = some (sampleHeader ++ ["Hash".toList]) ∧
      res.output.length = 4 ∧
      ∃ out, res.output[2]? = some out ∧ sampleRowBlank <+: out := by
  obtain ⟨res, hres⟩ := exists_ok_of_toBool (run asciiCase sampleReader sampleRecords)
    (by decide)
  obtain ⟨header, rows, hrec, hhead, hlen, hrows⟩ :=
    output_is_header_then_rows asciiCase digest.New sampleReader sampleRecords res hres
  obtain ⟨rfl, rfl⟩ := List.cons.inj hrec
  obtain ⟨out, hout, hpre, -⟩ := hrows 1 sampleRowBlank rfl
  exact ⟨res, hres, hhead, hlen, out, hout, hpre⟩

/-- C16: the object of a row with a name has format `CHIP-0007`, name and
description the trimmed name and description cells, sensitive content
`false`, and as collection the constant `zuriCollection` of the source,
whatever the row. -/
theorem object_fixed_fields (ct : CaseTables) (header : List GoString) (cols : Columns)
    (numLines : Nat) (st : LoopState) (record : List GoString) (res : RowResult)
    (nameCell : GoString)
    (hname : index record cols.nftNameIndex = .ok nameCell) (hne : nameCell ≠ [])
    (hres : processRecord ct header cols numLines st record = .ok res) :
    ∃ obj descriptionCell, res.object = some obj ∧
      index record cols.nftDescriptionIndex = .ok descriptionCell ∧
      obj.Format = "CHIP-0007".toList ∧
      obj.Name = TrimSpace nameCell ∧
      obj.Description = TrimSpace descriptionCell ∧
      obj.SensitiveContent = false ∧
      obj.Collection = zuriCollection ∧
      obj.Collection.Name = "Zuri NFT Tickets for Free Lunch".toList ∧
      obj.Collection.ID = "b774f676-c1d5-422e-beed-00ef5510c64d".toList ∧
      obj.Collection.Attributes.Type_ = "description".toList ∧
      obj.Collection.Attributes.Value = "Rewards for accomplishments during HNGi9.".toList := by
  obtain ⟨tn, g, d, attrs, -, -, hd, -, rfl⟩ :=
    processRecord_build ct header cols numLines st record res nameCell hname hne hres
  exact ⟨_, d, rfl, hd, rfl, rfl, rfl, rfl, rfl, rfl, rfl, rfl, rfl⟩

theorem object_fixed_fields_witness :
    ∃ res obj, processRecord asciiCase sampleHeaderHash
        (resolveColumns asciiCase sampleHeaderHash) 4 initialState sampleRowBevel = .ok res ∧
      res.object = some obj ∧ obj.Format = "CHIP-0007".toList ∧
      obj.Name = "Adewale".toList ∧ obj.Description = "Adewale likes to gossip".toList ∧
      obj.SensitiveContent = false ∧ obj.Collection = zuriCollection := by
  obtain ⟨res, hres⟩ := exists_ok_of_toBool
    (processRecord asciiCase sampleHeaderHash (resolveColumns asciiCase sampleHeaderHash) 4
      initialState sampleRowBevel) (by decide)
  obtain ⟨obj, d, hobj, hd, hformat, hn, hdesc, hsens, hcoll, -⟩ :=
    object_fixed_fields asciiCase sampleHeaderHash (resolveColumns asciiCase sampleHeaderHash) 4
      initialState sampleRowBevel res "Adewale".toList rfl (by decide) hres
  have hd' : d = "Adewale likes to gossip ".toList := by
    have : index sampleRowBevel (resolveColumns asciiCase sampleHeaderHash).nftDescriptionIndex
        = .ok "Adewale likes to gossip ".toList := rfl
    rw [this] at hd
    exact (Except.ok.inj hd).symm
  subst hd'
  exact ⟨res, obj, hres, hobj, hformat, by rw [hn]; decide, by rw [hdesc]; decide, hsens,
    hcoll⟩

/-- C17: in a run of `process` that completes, the running ordinal is 1
before the first row and after every row it is 1 plus the number of rows so
far that have a name cell or a series-number cell that is not empty: it
advances by one on such a row and by nothing on any other.  So the series
number of a row with a name is 1 plus the number of such rows before it, and
the series numbers grow strictly from one row with a name to the next. -/
theorem ordinal_counts_advancing_rows (ct : CaseTables) (hasher : digest)
    (r : List (List Nat × Option ReadError)) (header : List GoString)
    (rows : List (List GoString)) (res : ProcessResult)
    (hrun : process ct hasher r (header :: rows) = .ok res) :
    (∀ (i : Nat) (record : List GoString) (row : RowResult),
      rows[i]? = some record → res.rows[i]? = some row →
      row.state.line = 1 + (rows.take (i + 1)).countP
        (advancesOrdinal (getIndex ct (header ++ ["Hash".toList]) "name".toList)
          (getIndex ct (header ++ ["Hash".toList]) "series number".toList)) ∧
      row.state.line = 1 + (rows.take i).countP
          (advancesOrdinal (getIndex ct (header ++ ["Hash".toList]) "name".toList)
            (getIndex ct (header ++ ["Hash".toList]) "series number".toList)) +
        (if advancesOrdinal (getIndex ct (header ++ ["Hash".toList]) "name".toList)
          (getIndex ct (header ++ ["Hash".toList]) "series number".toList) record
          then 1 else 0) ∧
      (∀ obj, row.object = some obj →
        obj.SeriesNumber = 1 + (rows.take i).countP
          (advancesOrdinal (getIndex ct (header ++ ["Hash".toList]) "name".toList)
            (getIndex ct (header ++ ["Hash".toList]) "series number".toList)))) ∧
    (∀ (i j : Nat) (rowi rowj : RowResult) (obji objj : chipJson), i < j →
      res.rows[i]? = some rowi → res.rows[j]? = some rowj →
      rowi.object = some obji → rowj.object = some objj →
      obji.SeriesNumber < objj.SeriesNumber) := by
  obtain ⟨header', rows', hrec, -, -, hrows⟩ := process_ok ct hasher r _ res hrun
  obtain ⟨rfl, rfl⟩ := List.cons.inj hrec
  have hline := processRecords_line ct _ _ _ rows _ res.rows hrows
  obtain ⟨hlen, -⟩ := processRecords_written ct _ _ _ rows _ res.rows hrows
  have hget : ∀ (i : Nat) (row : RowResult), res.rows[i]? = some row →
      ∃ record, rows[i]? = some record := by
    intro i row hi
    have hlt : i < rows.length := by
      rw [← hlen]
      by_contra hge
      rw [List.getElem?_eq_none (by omega)] at hi
      simp at hi
    exact ⟨rows[i], List.getElem?_eq_getElem hlt⟩
  constructor
  · intro i record row hi hrow
    obtain ⟨hl, ho⟩ := hline i record row hi hrow
    refine ⟨by simpa using hl, ?_, fun obj hobj => by simpa using (ho obj hobj).1⟩
    rw [hl, countP_take_succ _ rows i record hi]
    simp only [resolveColumns]
    omega
  · intro i j rowi rowj obji objj hij hi hj hoi hoj
    obtain ⟨reci, hri⟩ := hget i rowi hi
    obtain ⟨recj, hrj⟩ := hget j rowj hj
    obtain ⟨-, hobji⟩ := hline i reci rowi hri hi
    obtain ⟨-, hobjj⟩ := hline j recj rowj hrj hj
    obtain ⟨hni, hadv⟩ := hobji obji hoi
    obtain ⟨hnj, -⟩ := hobjj objj hoj
    have hsucc := countP_take_succ (advancesOrdinal
      (resolveColumns ct (header ++ ["Hash".toList])).nftNameIndex
      (resolveColumns ct (header ++ ["Hash".toList])).nftSeriesNumberIndex) rows i reci hri
    rw [hadv] at hsucc
    have hmono := countP_take_mono (advancesOrdinal
      (resolveColumns ct (header ++ ["Hash".toList])).nftNameIndex
      (resolveColumns ct (header ++ ["Hash".toList])).nftSeriesNumberIndex) rows (i + 1) j
      (by omega)
    rw [hni, hnj]
    simp only [if_true] at hsucc
    omega

theorem ordinal_counts_advancing_rows_witness :
    ∃ res, run asciiCase sampleReader sampleRecords = .ok res ∧
      ∃ row1 row2 obj, res.rows[1]? = some row1 ∧ row1.state.line = 2 ∧
        res.rows[2]? = some row2 ∧ row2.object = some obj ∧ obj.SeriesNumber = 2 ∧
        row2.state.line = 3 := by
  obtain ⟨res, hres⟩ := exists_ok_of_toBool (run asciiCase sampleReader sampleRecords)
    (by decide)
  obtain ⟨hstate, -⟩ := ordinal_counts_advancing_rows asciiCase digest.New sampleReader
    sampleHeader [sampleRowBevel, sampleRowBlank, sampleRowNoTeam] res hres
  obtain ⟨header, rows, hrec, -, -, hrows⟩ :=
    process_ok asciiCase digest.New sampleReader sampleRecords res hres
  obtain ⟨rfl, rfl⟩ := List.cons.inj hrec
  obtain ⟨-, hw⟩ := processRecords_written asciiCase _ _ _ _ _ res.rows hrows
  obtain ⟨row1, hrow1, -⟩ := hw 1 sampleRowBlank rfl
  obtain ⟨row2, obj, hrow2, hobj, -⟩ := processRecords_minting asciiCase _ _ _ _ _ res.rows
    hrows 2 sampleRowNoTeam "Alli".toList rfl rfl (by decide)
  obtain ⟨h1, -, -⟩ := hstate 1 sampleRowBlank row1 rfl hrow1
  obtain ⟨h2, -, hnum⟩ := hstate 2 sampleRowNoTeam row2 rfl hrow2
  refine ⟨res, hres, row1, row2, obj, hrow1, ?_, hrow2, hobj, ?_, ?_⟩
  · rw [h1]
    decide
  · rw [hnum obj hobj]
    decide
  · rw [h2]
    decide

/-- C13 (the code departs from the claim): for a file of a header, a line
that only carries a team name, a blank line and one data line, `countLines`
returns 4, the number of newline bytes, and the one object of the run has 4 as
series total, where the file has one valid data line. -/
theorem series_total_counts_every_line :
    countLines smallFileReader = (4, none) ∧
      ∃ res row0 row1 obj, run asciiCase smallFileReader smallFileRecords = .ok res ∧
        res.rows = [row0, row1] ∧ row0.object = none ∧ row1.object = some obj ∧
        obj.SeriesTotal = 4 := by
  refine ⟨by decide, ?_⟩
  obtain ⟨res, hres⟩ := exists_ok_of_toBool (run asciiCase smallFileReader smallFileRecords)
    (by decide)
  obtain ⟨header, rows, hrec, -, -, hrows⟩ :=
    process_ok asciiCase digest.New smallFileReader smallFileRecords res hres
  obtain ⟨rfl, rfl⟩ := List.cons.inj hrec
  obtain ⟨row0, rs1, h0, hrest, hrs⟩ := processRecords_cons asciiCase _ _ _ _ _ _ _ hrows
  obtain ⟨row1, rs2, h1, hrest2, hrs1⟩ := processRecords_cons asciiCase _ _ _ _ _ _ _ hrest
  have hnil := processRecords_nil asciiCase _ _ _ _ _ hrest2
  subst hnil
  subst hrs1
  obtain ⟨tn0, sn0, -, -, hrow0⟩ := processRecord_skip asciiCase
    (smallFileHeader ++ ["Hash".toList])
    (resolveColumns asciiCase (smallFileHeader ++ ["Hash".toList])) _ _ smallFileTeamRow row0
    rfl h0
  obtain ⟨tn1, nc, -, hname, -, hcase⟩ := processRecord_cases asciiCase
    (smallFileHeader ++ ["Hash".toList])
    (resolveColumns asciiCase (smallFileHeader ++ ["Hash".toList])) _ _ smallFileDataRow row1 h1
  rcases hcase with ⟨hempty, -⟩ | ⟨-, -, obj, hobj, -, -, htot⟩
  · have : index smallFileDataRow
        (resolveColumns asciiCase (smallFileHeader ++ ["Hash".toList])).nftNameIndex
          = .ok "Adewale".toList := rfl
    rw [this] at hname
    have hnc := Except.ok.inj hname
    rw [← hnc] at hempty
    exact absurd hempty (by decide)
  · refine ⟨res, row0, row1, obj, hres, hrs, by rw [hrow0], hobj, ?_⟩
    rw [htot]
    decide

/-- C14 (the code departs from the claim): a data row that is shorter than
the position of a resolved column makes the pass of `process` panic with an
index out of range; so for a row of one cell under the sample header, and so
for every row that does not reach the column of team names. -/
theorem process_panics_on_short_row :
    run asciiCase sampleReader [sampleHeader, shortRow] = .error (.indexOutOfRange 3 1) ∧
    (∀ (ct : CaseTables) (header : List GoString) (cols : Columns) (numLines : Nat)
        (st : LoopState) (record : List GoString),
      0 ≤ cols.nftTeamNameIndex → (record.length : Int) ≤ cols.nftTeamNameIndex →
      processRecord ct header cols numLines st record
        = .error (.indexOutOfRange cols.nftTeamNameIndex record.length)) := by
  refine ⟨rfl, ?_⟩
  intro ct header cols numLines st record h0 hlen
  have hidx : index record cols.nftTeamNameIndex
      = .error (.indexOutOfRange cols.nftTeamNameIndex record.length) := by
    unfold index
    rw [if_neg (by omega), List.getElem?_eq_none (by omega)]
  unfold processRecord
  rw [hidx]
  rfl

/-- C19: `serializeAttributes` is idempotent on its own output format: for
every input, the attributes it returns, written back as text (every attribute
as trait, `:`, value, the entries joined by `;`), parse to the same
attributes. -/
theorem serializeAttributes_reparses_own_output :
    (∀ s : GoString, ∃ attrs, serializeAttributes s = .ok attrs ∧
      serializeAttributes (formatAttributes attrs) = .ok attrs) ∧
    formatAttributes
        [{ TraitType := "Teeth Color".toList, Value := "Brown".toList },
         { TraitType := "Eye Color".toList, Value := "Blue".toList }]
      = "Teeth Color:Brown;Eye Color:Blue".toList := by
  refine ⟨fun s => ?_, by decide⟩
  obtain ⟨out, hout⟩ := serializeEntries_total (Split (replaceFrom attributeSeparators 0 s) ';')
  have hs : serializeAttributes s = .ok out := by
    rw [serializeAttributes_eq]
    simpa using hout []
  exact ⟨out, hs, serializeAttributes_formatted out (serializeAttributes_tidy s out hs)⟩

theorem serializeAttributes_reparses_own_output_witness :
    ∃ attrs, serializeAttributes " Teeth Color : Brown , Eye Color: Blue;junk".toList = .ok attrs ∧
      formatAttributes attrs = "Teeth Color:Brown;Eye Color:Blue".toList ∧
      serializeAttributes "Teeth Color:Brown;Eye Color:Blue".toList = .ok attrs := by
  obtain ⟨attrs, hs, hre⟩ := serializeAttributes_reparses_own_output.1
    " Teeth Color : Brown , Eye Color: Blue;junk".toList
  have hval : serializeAttributes " Teeth Color : Brown , Eye Color: Blue;junk".toList
      = .ok [{ TraitType := "Teeth Color".toList, Value := "Brown".toList },
             { TraitType := "Eye Color".toList, Value := "Blue".toList }] := rfl
  rw [hval] at hs
  have := Except.ok.inj hs
  subst this
  exact ⟨_, hval, by decide, hre⟩

end Hashtool
